import Mathlib

/-!
Verification development for the Juniper adaptive game engine
(`juniper_ai_complete.py`).

The shallow embedding below translates the game-state model
(`GameState`), the alpha-beta solver (`AdaptiveAI.minimax_alpha_beta`),
the knowledge store (`KnowledgeBase.update_sequence`,
`KnowledgeBase.propagate_certainties`) and the move-selection paths
(`AdaptiveAI._quick_lookup`, `_quick_heuristic_move`,
`_heuristic_first_move`, `_minimax_move`,
`find_move_with_time_budget`, `_validate_move`) into Lean.

Modelling conventions, applied uniformly:
* Python floats carrying confidences and time budgets become `ℚ`; the
  code only ever compares and adds such values at magnitudes where
  double rounding cannot flip any comparison that the theorems below
  depend on.
* The float values `float('-inf')`/`float('inf')` used as alpha-beta
  bounds become the three-way type `XQ` (`negInf`, `fin q`, `posInf`).
* A sequence key `"2-4-1"` is the hyphen-joined move path; the
  serialisation is injective, so keys are modelled as the move list
  `[2,4,1]` itself, with child key `key ++ [m]`.
* Python dicts (insertion ordered, unique keys) become association
  lists; the single `KnowledgeBase.sequences[grid_size]` map for one
  grid is the store.  Timestamp fields (`created`, `last_updated`) and
  the auto-save bookkeeping (`dirty`, `changes_since_save`) do not
  influence any claim and are omitted.
* `random.choice` becomes an explicit oracle `pick : List ℕ → ℕ`,
  constrained in theorems by `∀ l, l ≠ [] → pick l ∈ l`.
* Wall-clock reads inside `_validate_move`'s depth loop become an
  oracle `elapsed : ℕ → ℚ` giving the elapsed time at each check.
* The recursive solver terminates because every ply removes one
  not-yet-played number of `[1,N]`; the Lean versions take explicit
  fuel, consumed once per ply, and the wrappers pass
  `unplayed_count state + 1`, which the fuel-adequacy arguments inside
  the proofs show is never exhausted.
-/

/-- Extended values for the float alpha/beta bounds: `float('-inf')`,
finite values, `float('inf')`. -/
inductive XQ where
  | negInf : XQ
  | fin : ℚ → XQ
  | posInf : XQ
deriving DecidableEq

/-- The float `<=` comparison on alpha/beta bounds. -/
def XQ.le : XQ → XQ → Bool
  | .negInf, _ => true
  | .fin _, .posInf => true
  | .fin a, .fin b => decide (a ≤ b)
  | .fin _, .negInf => false
  | .posInf, .posInf => true
  | .posInf, _ => false

/-- Python `max` on two alpha/beta bounds. -/
def XQ.max (a b : XQ) : XQ := if XQ.le a b then b else a

/-- Python `min` on two alpha/beta bounds. -/
def XQ.min (a b : XQ) : XQ := if XQ.le a b then a else b

/-- The two players (`Player.IA`, `Player.HUMAN`). -/
inductive Player where
  | IA : Player
  | HUMAN : Player
deriving DecidableEq

/-- Structure `GameState` from the source: the ordered list of played numbers,
the side to move, the grid size `max_n`, and the resignation flag. -/
structure GameState where
  moves : List Nat := []
  current_player : Player := Player.HUMAN
  max_n : Nat := 20
  resigned : Bool := false
deriving DecidableEq

/-- Property `GameState.last_move`: the last played number, if any. -/
def GameState.last_move (s : GameState) : Option Nat :=
  s.moves.getLast?

/-- Property `GameState.available_moves`: for an empty history,
`range(2, max_n + 1, 2)` (the even numbers); otherwise the numbers of
`range(1, max_n + 1)` not yet played that divide or are divided by the
last played number (`last % x == 0 or x % last == 0`). -/
def GameState.available_moves (s : GameState) : List Nat :=
  if s.moves = [] then
    List.range' 2 (s.max_n / 2) 2
  else
    let last := s.moves.getLastD 0
    (List.range' 1 s.max_n).filter
      (fun x => !s.moves.contains x && (last % x == 0 || x % last == 0))

/-- Property `GameState.is_finished`: no available move. -/
def GameState.is_finished (s : GameState) : Bool :=
  s.available_moves.length == 0

/-- Method `GameState.copy_with_move`: play `move`, hand the turn to
`next_player`. -/
def GameState.copy_with_move (s : GameState) (move : Nat) (next_player : Player) :
    GameState :=
  { moves := s.moves ++ [move], current_player := next_player, max_n := s.max_n }

/-- Number of not-yet-played numbers of `[1, max_n]`: the termination
measure of the game (each legal move removes exactly one). -/
def GameState.unplayed_count (s : GameState) : Nat :=
  ((List.range' 1 s.max_n).filter (fun x => !s.moves.contains x)).length

/-- Fuelled translation of `AdaptiveAI.minimax_alpha_beta`.  The two
`for` loops (with their `return True`/`return False` early exits and
`beta <= alpha` break) are rendered as continuation-passing folds over
the move list, which preserves the iteration order, the early exits
and the alpha/beta updates exactly.  One unit of fuel is consumed per
ply; fuel exhaustion returns the truncation default `not is_ia`,
which the wrapper's fuel choice makes unreachable. -/
def minimax_ab : Nat → GameState → Int → Int → XQ → XQ → Bool → Bool
  | 0, _, _, _, _, _, is_ia => !is_ia
  | fuel + 1, state, depth, max_depth, alpha, beta, is_ia =>
    if state.available_moves.isEmpty || depth ≥ max_depth then !is_ia
    else
      let md : Int := if state.available_moves.length ≤ 5 then 99 else max_depth
      if is_ia then
        (state.available_moves.foldr
          (fun move k => fun alpha =>
            if minimax_ab fuel (state.copy_with_move move Player.HUMAN)
                (depth + 1) md alpha beta false then
              true
            else
              let alpha' := XQ.max alpha (XQ.fin 0)
              if XQ.le beta alpha' then false else k alpha')
          (fun _ => false)) alpha
      else
        (state.available_moves.foldr
          (fun move k => fun beta =>
            if !minimax_ab fuel (state.copy_with_move move Player.IA)
                (depth + 1) md alpha beta true then
              false
            else
              let beta' := XQ.min beta (XQ.fin 1)
              if XQ.le beta' alpha then true else k beta')
          (fun _ => true)) beta

/-- Wrapper for `AdaptiveAI.minimax_alpha_beta`, with enough fuel for the whole
game tree below `state`. -/
def minimax_alpha_beta (state : GameState) (depth max_depth : Int)
    (alpha beta : XQ) (is_ia : Bool) : Bool :=
  minimax_ab (state.unplayed_count + 1) state depth max_depth alpha beta is_ia

/-- The plain depth-bounded minimax recursion: `minimax_alpha_beta`
with the two `beta <= alpha` cutoff branches removed (the alpha/beta
parameters then carry no information, so they are dropped); the early
exits of the two loops make them `any`/`all`. -/
def minimax_plain_fuel : Nat → GameState → Int → Int → Bool → Bool
  | 0, _, _, _, is_ia => !is_ia
  | fuel + 1, state, depth, max_depth, is_ia =>
    if state.available_moves.isEmpty || depth ≥ max_depth then !is_ia
    else
      let md : Int := if state.available_moves.length ≤ 5 then 99 else max_depth
      if is_ia then
        state.available_moves.any fun move =>
          minimax_plain_fuel fuel (state.copy_with_move move Player.HUMAN)
            (depth + 1) md false
      else
        state.available_moves.all fun move =>
          minimax_plain_fuel fuel (state.copy_with_move move Player.IA)
            (depth + 1) md true

/-- Wrapper for the plain recursion with the same fuel policy. -/
def minimax_plain (state : GameState) (depth max_depth : Int) (is_ia : Bool) :
    Bool :=
  minimax_plain_fuel (state.unplayed_count + 1) state depth max_depth is_ia

/-- The exact, unbounded-depth minimax value of a position (the §4.2
recursion with no depth cap): the side that cannot move has lost; in
IA-perspective terms the value is `not is_ia` at a finished node, and
otherwise the usual exists/forall alternation. -/
def solve_exact_fuel : Nat → GameState → Bool → Bool
  | 0, _, is_ia => !is_ia
  | fuel + 1, state, is_ia =>
    if state.available_moves.isEmpty then !is_ia
    else if is_ia then
      state.available_moves.any fun move =>
        solve_exact_fuel fuel (state.copy_with_move move Player.HUMAN) false
    else
      state.available_moves.all fun move =>
        solve_exact_fuel fuel (state.copy_with_move move Player.IA) true

/-- Exact game value wrapper. -/
def solve_exact (state : GameState) (is_ia : Bool) : Bool :=
  solve_exact_fuel (state.unplayed_count + 1) state is_ia

/-- A knowledge entry (one value of `KnowledgeBase.sequences[grid]`):
`outcome` (`"win"`/`"lose"`), `confidence`, `depth`, the `wins`/`losses`
corroboration counters, `verified_count` and the `is_terminal` flag.
The timestamp fields are omitted (see the module docstring). -/
structure SeqEntry where
  outcome : String
  confidence : ℚ
  depth : Int
  wins : Nat
  losses : Nat
  verified_count : Nat
  is_terminal : Bool
deriving DecidableEq

/-- A sequence key: the move path (serialised with hyphens in the
source). -/
abbrev SeqKey := List Nat

/-- The per-grid knowledge store `sequences[grid_size]`, as an
insertion-ordered association list (the Python dict). -/
abbrev KStore := List (SeqKey × SeqEntry)

/-- Lookup `KnowledgeBase.get_sequence` for one grid: first binding of the
key. -/
def lookup_seq : KStore → SeqKey → Option SeqEntry
  | [], _ => none
  | (k, e) :: rest, key => if k = key then some e else lookup_seq rest key

/-- In-place dict update: replace the first binding of `key`. -/
def store_update : KStore → SeqKey → SeqEntry → KStore
  | [], _, _ => []
  | (k, e) :: rest, key, e' =>
    if k = key then (k, e') :: rest else (k, e) :: store_update rest key e'

/-- Dict insertion of a fresh key (Python appends in insertion
order). -/
def store_insert (store : KStore) (key : SeqKey) (e : SeqEntry) : KStore :=
  store ++ [(key, e)]

/-- The statistical branch of `KnowledgeBase.update_sequence`:
increment the `wins`/`losses` counter matching `outcome` and
`verified_count`, recompute the confidence from the win rate
(0.98 for a unanimous record at depth `>= 15`, 0.95 at depth `>= 10`,
otherwise `min(0.90, |win_rate - 0.5| * 2 + min(0.20,
verified_count * 0.01))`), and keep the maximal observed depth. -/
def stat_updated (seq : SeqEntry) (outcome : String) (depth : Int) : SeqEntry :=
  let wins := if outcome = "win" then seq.wins + 1 else seq.wins
  let losses := if outcome = "win" then seq.losses else seq.losses + 1
  let verified_count := seq.verified_count + 1
  let total := wins + losses
  let win_rate : ℚ := if 0 < total then (wins : ℚ) / (total : ℚ) else 1 / 2
  let confidence' : ℚ :=
    if (win_rate = 1 ∨ win_rate = 0) ∧ 15 ≤ depth then 98 / 100
    else if (win_rate = 1 ∨ win_rate = 0) ∧ 10 ≤ depth then 95 / 100
    else
      min (90 / 100)
        (|win_rate - 1 / 2| * 2 + min (20 / 100) ((verified_count : ℚ) * (1 / 100)))
  { seq with
    wins := wins
    losses := losses
    verified_count := verified_count
    confidence := confidence'
    depth := max seq.depth depth }

/-- Update `KnowledgeBase.update_sequence` for one grid, acting on the
sequences map.  Branches, in source order: create the entry if the key
is absent (terminal creation forces confidence `1.0`); return
untouched if the stored entry is already terminal; promote to terminal
if the call is terminal; otherwise do the statistical update with the
0.98/0.95/`min(0.90, ...)` confidence formula and keep the maximal
depth. -/
def update_sequence (store : KStore) (key : SeqKey) (outcome : String)
    (confidence : ℚ) (depth : Int) (is_terminal : Bool) : KStore :=
  match lookup_seq store key with
  | none =>
    store_insert store key
      { outcome := outcome
        confidence := if is_terminal then 1 else confidence
        depth := depth
        wins := if outcome = "win" then 1 else 0
        losses := if outcome = "lose" then 1 else 0
        verified_count := 1
        is_terminal := is_terminal }
  | some seq =>
    if seq.is_terminal then store
    else if is_terminal then
      store_update store key
        { seq with confidence := 1, is_terminal := true, outcome := outcome }
    else store_update store key (stat_updated seq outcome depth)

/-- One entry visit of a `propagate_certainties` pass: skip entries
with confidence `>= 0.99`; rebuild the position from the key; skip
positions with no legal move; require every child key to carry an
entry with confidence `>= 0.99`; then apply the minimax closure
(all children `lose` → parent `win`; some child `win` → parent `lose`)
and promote the parent to a terminal certainty. -/
def prop_step (max_n : Nat) (acc : KStore × Bool) (key : SeqKey) : KStore × Bool :=
  let store := acc.1
  match lookup_seq store key with
  | none => acc
  | some seq =>
    if (99 : ℚ) / 100 ≤ seq.confidence then acc
    else
      let state : GameState := { moves := key, max_n := max_n }
      let all_possible_moves := state.available_moves
      if all_possible_moves = [] then acc
      else
        let all_explored := all_possible_moves.all fun next_move =>
          match lookup_seq store (key ++ [next_move]) with
          | some child => decide ((99 : ℚ) / 100 ≤ child.confidence)
          | none => false
        if !all_explored then acc
        else
          let child_outcomes := all_possible_moves.filterMap fun next_move =>
            (lookup_seq store (key ++ [next_move])).map (·.outcome)
          let wins := child_outcomes.count "win"
          let losses := child_outcomes.count "lose"
          let total := child_outcomes.length
          if losses = total then
            (store_update store key
              { seq with outcome := "win", confidence := 1, is_terminal := true },
             true)
          else if 1 ≤ wins then
            (store_update store key
              { seq with outcome := "lose", confidence := 1, is_terminal := true },
             true)
          else acc

/-- One full scan of all entries (one iteration of the `while` loop of
`propagate_certainties`), in insertion order, with the `changed`
flag. -/
def prop_pass (max_n : Nat) (store : KStore) : KStore × Bool :=
  (store.map Prod.fst).foldl (prop_step max_n) (store, false)

/-- The `while changed and iterations < max_iterations` loop, with the
remaining iteration budget as fuel (`max_iterations = 10`).  Returns
the final store and the value of `changed` that the source returns. -/
def propagate_loop (max_n : Nat) : Nat → KStore → KStore × Bool
  | 0, store => (store, true)
  | n + 1, store =>
    let p := prop_pass max_n store
    if p.2 then propagate_loop max_n n p.1 else (p.1, false)

/-- Pass driver `KnowledgeBase.propagate_certainties` for one grid. -/
def propagate_certainties (max_n : Nat) (store : KStore) : KStore × Bool :=
  propagate_loop max_n 10 store

/-- A call to `knowledge.update_sequence` recorded as data: the key
and the outcome/confidence/depth/terminal arguments. -/
structure WriteRec where
  key : SeqKey
  outcome : String
  confidence : ℚ
  depth : Int
  is_terminal : Bool
deriving DecidableEq

/-- From `KnowledgeBase._compute_properties`: the divisors of `n` below
`n` (`range(1, n)` filtered by `n % x == 0`). -/
def divisors (n : Nat) : List Nat :=
  (List.range' 1 (n - 1)).filter (fun x => n % x == 0)

/-- From `KnowledgeBase._compute_properties`: the proper multiples of `n`
within the grid (`range(n * 2, grid_size + 1, n)`). -/
def grid_multiples (n grid_size : Nat) : List Nat :=
  List.range' (2 * n) (grid_size / n - 1) n

/-- The `all_connections` of a number: divisors then multiples. -/
def all_connections (n grid_size : Nat) : List Nat :=
  divisors n ++ grid_multiples n grid_size

/-- Method `KnowledgeBase.get_dynamic_connections`: static connections minus
the already played numbers and the number itself. -/
def get_dynamic_connections (grid_size number : Nat)
    (already_played : List Nat) : List Nat :=
  (all_connections number grid_size).filter
    (fun x => !already_played.contains x && x != number)

/-- Method `KnowledgeBase.get_best_moves_by_connections`: score each
available move by its dynamic-connection count after playing it, keep
scores `>= min_connections`, sort by score descending.  `mergeSort` is
stable, as is Python's `list.sort`. -/
def get_best_moves_by_connections (grid_size : Nat)
    (available already_played : List Nat) (min_connections : Nat) :
    List (Nat × Nat) :=
  let scored := available.filterMap fun move =>
    let total :=
      (get_dynamic_connections grid_size move (already_played ++ [move])).length
    if min_connections ≤ total then some (move, total) else none
  scored.mergeSort (fun a b => b.2 ≤ a.2)

/-- The primality test used by `_quick_heuristic_move` and
`_minimax_move`: `n > 1 and all(n % i != 0 for i in
range(2, int(n**0.5) + 1))`.  `int(n**0.5)` is `Nat.sqrt n` at the
grid sizes in use. -/
def is_prime_py (n : Nat) : Bool :=
  decide (1 < n) && (List.range' 2 (Nat.sqrt n - 1)).all (fun i => n % i != 0)

/-- The "opponent just played 1" shortcut of `_quick_heuristic_move`:
when the last move is 1, answer with the largest available prime above
`0.8 * max_n`, if any. -/
def prime_shortcut (state : GameState) (available : List Nat) : Option Nat :=
  if !state.moves.isEmpty && (state.moves.getLastD 0 == 1) then
    let primes := available.filter fun (n : Nat) =>
      decide ((state.max_n : ℚ) * (8 / 10) < (n : ℚ)) && is_prime_py n
    if primes ≠ [] then some (primes.foldl Nat.max 0) else none
  else none

/-- One iteration of the safety filter of `_quick_heuristic_move`:
simulate `move`, scan (at most 5 of) the opponent replies for one that
leaves the engine with no option or only the number 1, and if found
record the trapped sequence as a non-terminal `lose` observation. -/
def safe_result (state : GameState) (move : Nat) : Nat × Option WriteRec :=
  let next_state := state.copy_with_move move Player.HUMAN
  let adversary_moves := next_state.available_moves
  (move,
   ((adversary_moves.take 5).find? (fun adv_move =>
      let after_adv := next_state.copy_with_move adv_move Player.IA
      let my_options_after := after_adv.available_moves
      my_options_after.isEmpty ||
        (my_options_after.length == 1 && my_options_after.contains 1))).map
     (fun adv_move =>
       { key := (next_state.copy_with_move adv_move Player.IA).moves
         outcome := "lose"
         confidence := 95 / 100
         depth := 2
         is_terminal := false }))

/-- One iteration of the 2-ply lookahead of `_quick_heuristic_move`:
simulate `move`; if the opponent is stuck, record the terminal `win`
and score 1000; otherwise score by the worst-case number of options
left across (at most 8) opponent replies, recording a terminal `lose`
for every reply that leaves the engine stuck. -/
def eval_result (state : GameState) (move : Nat) : (Nat × Nat) × List WriteRec :=
  let next_state := state.copy_with_move move Player.HUMAN
  let adversary_moves := next_state.available_moves
  let our_seq_key := next_state.moves
  if adversary_moves = [] then
    ((move, (1000 : Nat)),
     [({ key := our_seq_key, outcome := "win", confidence := 1,
         depth := 2, is_terminal := true } : WriteRec)])
  else
    let reply_results := (adversary_moves.take 8).map fun adv_move =>
      let after_adv := next_state.copy_with_move adv_move Player.IA
      let our_moves_after := after_adv.available_moves
      if our_moves_after = [] then
        ((0 : Nat),
         [({ key := after_adv.moves, outcome := "lose", confidence := 1,
             depth := 2, is_terminal := true } : WriteRec)])
      else (our_moves_after.length, ([] : List WriteRec))
    let our_options_after := reply_results.map Prod.fst
    let score := match our_options_after with
      | [] => 0
      | h :: t => t.foldl Nat.min h
    ((move, score), reply_results.flatMap Prod.snd)

/-- Selector `AdaptiveAI._quick_heuristic_move`, returning the list of
`update_sequence` calls it performs (in order) together with the
chosen move.  `pick` is the `random.choice` oracle. -/
def quick_heuristic_move (pick : List Nat → Nat) (state : GameState) :
    List WriteRec × Option Nat :=
  let available := state.available_moves
  if available = [] then ([], none)
  else
    match prime_shortcut state available with
    | some choice => ([], some choice)
    | none =>
      let available :=
        if 1 < available.length && available.contains 1 then
          available.filter (fun x => x != 1)
        else available
      if available.length = 1 then ([], some (available.headD 0))
      else
        let available :=
          if 10 < available.length then
            let prefilter :=
              get_best_moves_by_connections state.max_n available state.moves 3
            if prefilter ≠ [] then (prefilter.take 10).map Prod.fst else available
          else available
        let safe_results := available.map (safe_result state)
        let trap_writes := safe_results.filterMap Prod.snd
        let safe_moves := (safe_results.filter (fun p => p.2.isNone)).map Prod.fst
        let available := if safe_moves ≠ [] then safe_moves else available
        let eval_results := available.map (eval_result state)
        let evaluated := eval_results.map Prod.fst
        let enrich_writes := eval_results.flatMap Prod.snd
        let sorted := evaluated.mergeSort (fun a b => b.2 ≤ a.2)
        let top_moves := (sorted.take 3).map Prod.fst
        (trap_writes ++ enrich_writes, some (pick top_moves))

/-- Lookup `AdaptiveAI._quick_lookup`: scan the children of the current key
for the recorded `win` of highest confidence; answer only when that
confidence reaches `0.85`. -/
def quick_lookup (store : KStore) (state : GameState) : Option Nat :=
  let best := state.available_moves.foldl
    (fun acc move =>
      match lookup_seq store (state.moves ++ [move]) with
      | some seq =>
        if seq.outcome == "win" && decide (acc.2 < seq.confidence) then
          (some move, seq.confidence)
        else acc
      | none => acc)
    ((none : Option Nat), (0 : ℚ))
  if 85 / 100 ≤ best.2 then best.1 else none

/-- Selector `AdaptiveAI._heuristic_first_move` for the opening move on large
grids: candidate evens (starting at 10 when `max_n >= 40`), ranked by
dynamic connections, else the documented fallbacks. -/
def heuristic_first_move (pick : List Nat → Nat) (state : GameState) : Nat :=
  let available :=
    if 40 ≤ state.max_n then List.range' 10 (state.max_n / 2 - 4) 2
    else List.range' 2 (state.max_n / 2) 2
  let scored := get_best_moves_by_connections state.max_n available state.moves 8
  if scored ≠ [] then
    let top_count := Nat.max 3 (scored.length / 3)
    let top_moves := (scored.take top_count).map Prod.fst
    pick top_moves
  else
    if 40 ≤ state.max_n then
      let safe := available.filter (fun x => state.max_n / 4 ≤ x)
      if safe ≠ [] then pick safe else pick available
    else pick available

/-- The budget- and grid-dependent search-depth table of
`_minimax_move` ("PROFONDEUR ADAPTEE AU TEMPS ET A LA GRILLE"). -/
def minimax_depth_for (grid_size : Nat) (moves_count : Nat)
    (time_budget : ℚ) : Int :=
  if grid_size ≤ 20 then (if 2 ≤ time_budget then 99 else 10)
  else if grid_size ≤ 30 then (if 3 ≤ time_budget then 99 else 8)
  else if grid_size ≤ 40 then
    (if 5 ≤ time_budget then 8
     else if 3 ≤ time_budget then 6
     else if (3 / 2 : ℚ) ≤ time_budget then 4
     else 3)
  else if moves_count = 0 then (if 50 ≤ grid_size then 3 else 5)
  else if moves_count ≤ 2 then (if 50 ≤ grid_size then 5 else 8)
  else if 5 < time_budget then 10
  else 8

/-- The winning-move scan of `_minimax_move`: keep the candidates the
solver proves winning, paired with the number of replies they leave to
the opponent. -/
def winning_moves_of (state : GameState) (available : List Nat)
    (depth : Int) : List (Nat × Nat) :=
  available.filterMap fun move =>
    let test_state := state.copy_with_move move Player.HUMAN
    if minimax_alpha_beta test_state 0 depth XQ.negInf XQ.posInf false then
      some (move, test_state.available_moves.length)
    else none

/-- Selector `AdaptiveAI._minimax_move`: filter the move `1`, the after-1
tactics, the budget/grid-dependent depth table, the large-grid
candidate filter, then keep the winning moves (sorted by how few
replies they leave) or fall back to a random legal move. -/
def minimax_move (pick : List Nat → Nat) (state : GameState)
    (time_budget : ℚ) : Nat :=
  let available := state.available_moves
  let available :=
    if 1 < available.length && available.contains 1 then
      available.filter (fun x => x != 1)
    else available
  let after_one := (state.moves.getLast? == some 1) && decide (3 < available.length)
  let large_primes := available.filter fun x =>
    is_prime_py x && decide ((state.max_n : ℚ) * (5 / 10) < (x : ℚ))
  if after_one && !large_primes.isEmpty then large_primes.foldl Nat.max 0
  else
    let available :=
      if after_one && large_primes.isEmpty then
        let better_moves := available.filter (fun x => decide (6 < x))
        if better_moves ≠ [] then better_moves else available
      else available
    let grid_size := state.max_n
    let depth : Int := minimax_depth_for grid_size state.moves.length time_budget
    let available :=
      if 50 ≤ grid_size && 10 < available.length then
        let scored := get_best_moves_by_connections grid_size available state.moves 5
        if scored ≠ [] then (scored.take 10).map Prod.fst
        else
          ((get_best_moves_by_connections grid_size available state.moves 0).take 10).map
            Prod.fst
      else available
    let winning_moves := winning_moves_of state available depth
    if winning_moves ≠ [] then
      ((winning_moves.mergeSort (fun a b => a.2 ≤ b.2)).headD (0, 0)).1
    else pick available

/-- Controller `AdaptiveAI.find_move_with_time_budget`, phases 1 and 2 (the
choice of move).  Phase 3 (`_deep_learning` and the psychological
`sleep`) only consumes the remaining budget and never alters
`chosen_move`, so it is not part of the returned value; when the grid
size falls strictly between 30 and 40 and the lookup misses, no
compute branch runs and `chosen_move` stays `None`. -/
def find_move_with_time_budget (pick : List Nat → Nat) (store : KStore)
    (state : GameState) (time_budget : ℚ) : Option Nat :=
  match quick_lookup store state with
  | some quick_move => some quick_move
  | none =>
    if 40 ≤ state.max_n then
      if state.moves.length = 0 then some (heuristic_first_move pick state)
      else (quick_heuristic_move pick state).2
    else if state.max_n ≤ 30 then
      some (minimax_move pick state (time_budget * (6 / 10)))
    else none

/-- The inner `for depth in [8, 10, 12, 15]` validation loop of
`AdaptiveAI._validate_move`: `elapsed i` is the wall-clock reading at
the `i`-th check; the loop stops when the remaining budget drops below
the per-step estimate, and otherwise records one non-terminal
observation per depth. -/
def validate_loop (elapsed : Nat → ℚ) (time_budget : ℚ) (max_n : Nat)
    (next_state : GameState) (extended_key : SeqKey) :
    Nat → List Int → List WriteRec
  | _, [] => []
  | i, depth :: rest =>
    let remaining := time_budget - elapsed i
    let estimated : ℚ := if max_n ≤ 30 then 3 / 10 else 5 / 10
    if remaining < estimated + 1 / 10 then []
    else
      { key := extended_key
        outcome :=
          if minimax_alpha_beta next_state 0 depth XQ.negInf XQ.posInf false then
            "win"
          else "lose"
        confidence := 85 / 100 + (depth : ℚ) / 100
        depth := depth
        is_terminal := false } ::
      validate_loop elapsed time_budget max_n next_state extended_key (i + 1) rest

/-- Validator `AdaptiveAI._validate_move`, as the list of `update_sequence`
calls it performs.  A hyphen-joined key ends in `-1` (or equals `"1"`)
exactly when the move just appended is `1`. -/
def validate_move_writes (elapsed : Nat → ℚ) (state : GameState) (move : Nat)
    (time_budget : ℚ) : List WriteRec :=
  if time_budget < 1 / 2 then []
  else
    let extended_key := state.moves ++ [move]
    let next_state := state.copy_with_move move Player.HUMAN
    if move == 1 && !next_state.is_finished then
      [{ key := extended_key, outcome := "lose", confidence := 99 / 100,
         depth := 1, is_terminal := false }]
    else if next_state.is_finished then
      [{ key := extended_key, outcome := "win", confidence := 1,
         depth := 99, is_terminal := true }]
    else
      validate_loop elapsed time_budget state.max_n next_state extended_key 0
        [8, 10, 12, 15]

/-- The store obtained by replaying a list of `update_sequence` calls
from the empty store. -/
def apply_update_calls (calls : List WriteRec) : KStore :=
  calls.foldl
    (fun st c => update_sequence st c.key c.outcome c.confidence c.depth c.is_terminal)
    []

/-- The invariant of claim C7 (in its amended form): every
non-terminal entry whose confidence has been recomputed at least once
(`verified_count >= 2`) has confidence at most `0.98`. -/
def conf_inv (st : KStore) : Prop :=
  ∀ k e, lookup_seq st k = some e → e.is_terminal = false →
    2 ≤ e.verified_count → e.confidence ≤ 98 / 100

/-- A two-entry store exhibiting the C8 counterexample: the parent
`[2]` (grid 2) has the single legal child `[2,1]`, whose entry is
present but `is_terminal = false` with confidence `0.99`. -/
def c8_store : KStore :=
  [([2], ⟨"lose", 1 / 2, 1, 0, 1, 1, false⟩),
   ([2, 1], ⟨"win", 99 / 100, 1, 1, 0, 1, false⟩)]

/-- The outcomes of the child entries of `key` present in the store,
in move order (`child_outcomes` of the propagation pass). -/
def child_outcomes_of (N : Nat) (st : KStore) (k : SeqKey) : List String :=
  (GameState.mk k Player.HUMAN N false).available_moves.filterMap
    (fun next_move => (lookup_seq st (k ++ [next_move])).map (·.outcome))

/-- The two-entry store of the C3 counterexample: the parent `[2]` is
non-terminal with confidence `0.99` and its single legal child `[2,1]`
is terminal with confidence `1.0`. -/
def c3_store : KStore :=
  [([2], ⟨"win", 99 / 100, 1, 1, 0, 1, false⟩),
   ([2, 1], ⟨"win", 1, 99, 1, 0, 1, true⟩)]

lemma mem_available_of_empty (s : GameState) (h : s.moves = []) (x : Nat) :
    x ∈ s.available_moves ↔ 1 ≤ x ∧ x ≤ s.max_n ∧ 2 ∣ x := by
  simp only [GameState.available_moves, if_pos h, List.mem_range']
  constructor
  · rintro ⟨i, hi, rfl⟩
    refine ⟨by omega, ?_, ⟨i + 1, by ring⟩⟩
    omega
  · rintro ⟨h1, h2, j, rfl⟩
    exact ⟨j - 1, by omega, by omega⟩

lemma mem_available_of_last (s : GameState) (last : Nat)
    (hl : s.moves.getLast? = some last) (x : Nat) :
    x ∈ s.available_moves ↔
      1 ≤ x ∧ x ≤ s.max_n ∧ x ∉ s.moves ∧ (x ∣ last ∨ last ∣ x) := by
  have hne : s.moves ≠ [] := by
    intro h
    rw [h] at hl
    simp at hl
  have hD : s.moves.getLastD 0 = last := by
    rw [List.getLastD_eq_getLast?, hl]
    rfl
  simp only [GameState.available_moves, if_neg hne, hD, List.mem_filter,
    List.mem_range'_1, Bool.and_eq_true, Bool.or_eq_true, Bool.not_eq_true',
    List.contains, List.elem_eq_mem, decide_eq_false_iff_not, beq_iff_eq,
    ← Nat.dvd_iff_mod_eq_zero]
  constructor
  · rintro ⟨⟨h1, h2⟩, hc, hdvd⟩
    exact ⟨h1, by omega, hc, hdvd⟩
  · rintro ⟨h1, h2, hnm, hdvd⟩
    exact ⟨⟨h1, by omega⟩, hnm, hdvd⟩

lemma mem_available_facts {s : GameState} {m : Nat}
    (h : m ∈ s.available_moves) : 1 ≤ m ∧ m ≤ s.max_n ∧ m ∉ s.moves := by
  rcases Decidable.em (s.moves = []) with he | hne
  · rw [mem_available_of_empty s he] at h
    exact ⟨h.1, h.2.1, by simp [he]⟩
  · rcases List.getLast?_isSome.2 hne |> Option.isSome_iff_exists.1 with ⟨last, hl⟩
    rw [mem_available_of_last s last hl] at h
    exact ⟨h.1, h.2.1, h.2.2.1⟩

lemma nodup_available (s : GameState) : s.available_moves.Nodup := by
  rw [GameState.available_moves]
  split
  · exact List.nodup_range' _ _ 2 (by norm_num)
  · exact (List.nodup_range' _ _).filter _

/-- Claim C1: for every `GameState` with distinct moves in `[1,N]`,
`available_moves` is exactly the even numbers of `[1,N]` when no move
was played, and otherwise exactly the unplayed numbers of `[1,N]` that
divide or are divided by the last move; in particular for `N = 6` the
root offers `[2,4,6]`, the state `[2]` offers `[1,4,6]` and the state
`[2,4]` offers `[1]`. -/
theorem claim_C1_available_moves_characterisation :
    (∀ (s : GameState), s.moves.Nodup →
      (∀ m ∈ s.moves, 1 ≤ m ∧ m ≤ s.max_n) →
      ∀ x : Nat,
        (s.moves = [] →
          (x ∈ s.available_moves ↔ 1 ≤ x ∧ x ≤ s.max_n ∧ 2 ∣ x)) ∧
        (∀ last, s.moves.getLast? = some last →
          (x ∈ s.available_moves ↔
            1 ≤ x ∧ x ≤ s.max_n ∧ x ∉ s.moves ∧ (x ∣ last ∨ last ∣ x)))) ∧
    (GameState.mk [] Player.HUMAN 6 false).available_moves = [2, 4, 6] ∧
    (GameState.mk [2] Player.HUMAN 6 false).available_moves = [1, 4, 6] ∧
    (GameState.mk [2, 4] Player.HUMAN 6 false).available_moves = [1] := by
  refine ⟨fun s _ _ x => ⟨fun he => mem_available_of_empty s he x,
    fun last hl => mem_available_of_last s last hl x⟩, by decide, by decide, by decide⟩

/-- Witness for C1 at a concrete input. -/
theorem claim_C1_witness :
    4 ∈ (GameState.mk [2] Player.HUMAN 6 false).available_moves ↔
      1 ≤ 4 ∧ 4 ≤ 6 ∧ 4 ∉ [2] ∧ (4 ∣ 2 ∨ 2 ∣ 4) :=
  (claim_C1_available_moves_characterisation.1 (GameState.mk [2] Player.HUMAN 6 false)
    (by decide) (by decide) 4).2 2 rfl

/-- Claim C5: on a finished state the solver returns `not is_ia` for
every depth `>= 0`, `max_depth`, alpha and beta: the side to move
never wins a finished position. -/
theorem claim_C5_finished_returns_not_is_ia (s : GameState)
    (depth max_depth : Int) (alpha beta : XQ) (is_ia : Bool)
    (hfin : s.is_finished = true) (hd : 0 ≤ depth) :
    minimax_alpha_beta s depth max_depth alpha beta is_ia = !is_ia := by
  have hav : s.available_moves.isEmpty = true := by
    rw [GameState.is_finished, Nat.beq_eq_true_eq] at hfin
    rw [List.isEmpty_iff_length_eq_zero]
    exact hfin
  simp [minimax_alpha_beta, minimax_ab, hav]

/-- Witness for C5 at a concrete finished state. -/
theorem claim_C5_witness :
    (GameState.mk [2, 1] Player.HUMAN 2 false).is_finished = true ∧
    minimax_alpha_beta (GameState.mk [2, 1] Player.HUMAN 2 false) 0 5
      XQ.negInf XQ.posInf true = false :=
  ⟨by decide,
   claim_C5_finished_returns_not_is_ia (GameState.mk [2, 1] Player.HUMAN 2 false)
     0 5 XQ.negInf XQ.posInf true (by decide) (by decide)⟩

lemma xq_le_zero_zero : XQ.le (XQ.fin 0) (XQ.fin 0) = true := by
  simp [XQ.le]

lemma xq_le_one_one : XQ.le (XQ.fin 1) (XQ.fin 1) = true := by
  simp [XQ.le]

lemma xq_max_zero_of_le {a : XQ} (h : XQ.le a (XQ.fin 0) = true) :
    XQ.max a (XQ.fin 0) = XQ.fin 0 := by
  rw [XQ.max, if_pos h]

lemma xq_min_one_of_le {b : XQ} (h : XQ.le (XQ.fin 1) b = true) :
    XQ.min b (XQ.fin 1) = XQ.fin 1 := by
  cases b with
  | negInf => simp [XQ.le] at h
  | fin q =>
    simp only [XQ.le, decide_eq_true_eq] at h
    rw [XQ.min]
    by_cases hq : q ≤ 1
    · have : q = 1 := le_antisymm hq h
      simp [XQ.le, this]
    · simp [XQ.le, hq]
  | posInf =>
    rw [XQ.min]
    simp [XQ.le]

lemma xq_le_beta_zero_false {b : XQ} (h : XQ.le (XQ.fin 1) b = true) :
    XQ.le b (XQ.fin 0) = false := by
  cases b with
  | negInf => simp [XQ.le] at h
  | fin q =>
    simp only [XQ.le, decide_eq_true_eq] at h
    simp only [XQ.le, decide_eq_false_iff_not]
    linarith
  | posInf => rfl

lemma xq_le_one_alpha_false {a : XQ} (h : XQ.le a (XQ.fin 0) = true) :
    XQ.le (XQ.fin 1) a = false := by
  cases a with
  | negInf => rfl
  | fin q =>
    simp only [XQ.le, decide_eq_true_eq] at h
    simp only [XQ.le, decide_eq_false_iff_not]
    linarith
  | posInf => simp [XQ.le] at h

lemma minimax_ab_eq_plain (fuel : Nat) :
    ∀ (s : GameState) (depth max_depth : Int) (alpha beta : XQ) (is_ia : Bool),
      XQ.le alpha (XQ.fin 0) = true → XQ.le (XQ.fin 1) beta = true →
      minimax_ab fuel s depth max_depth alpha beta is_ia =
        minimax_plain_fuel fuel s depth max_depth is_ia := by
  induction fuel with
  | zero => intro s depth max_depth alpha beta is_ia _ _; rfl
  | succ fuel ih =>
    intro s depth max_depth alpha beta is_ia ha hb
    rw [minimax_ab, minimax_plain_fuel]
    by_cases hbase : s.available_moves.isEmpty || decide (depth ≥ max_depth)
    · simp only [hbase, if_true]
    · simp only [hbase, if_false]
      set md : Int :=
        if s.available_moves.length ≤ 5 then 99 else max_depth with hmd
      cases is_ia with
      | true =>
        simp only [if_true]
        have hIA : ∀ (l : List Nat) (alpha : XQ), XQ.le alpha (XQ.fin 0) = true →
            (l.foldr
              (fun move k => fun alpha =>
                if minimax_ab fuel (s.copy_with_move move Player.HUMAN)
                    (depth + 1) md alpha beta false then
                  true
                else
                  let alpha' := XQ.max alpha (XQ.fin 0)
                  if XQ.le beta alpha' then false else k alpha')
              (fun _ => false)) alpha =
            l.any fun move =>
              minimax_plain_fuel fuel (s.copy_with_move move Player.HUMAN)
                (depth + 1) md false := by
          intro l
          induction l with
          | nil => intro alpha _; rfl
          | cons m t iht =>
            intro alpha ha'
            simp only [List.foldr_cons, List.any_cons]
            rw [ih _ _ _ _ _ _ ha' hb]
            by_cases hrec :
              minimax_plain_fuel fuel (s.copy_with_move m Player.HUMAN)
                (depth + 1) md false
            · simp [hrec]
            · simp only [hrec, if_false, Bool.false_or]
              rw [xq_max_zero_of_le ha', xq_le_beta_zero_false hb, if_neg (by simp)]
              exact iht (XQ.fin 0) xq_le_zero_zero
        exact hIA s.available_moves alpha ha
      | false =>
        simp only [if_false, Bool.false_eq_true]
        have hH : ∀ (l : List Nat) (beta : XQ), XQ.le (XQ.fin 1) beta = true →
            (l.foldr
              (fun move k => fun beta =>
                if !minimax_ab fuel (s.copy_with_move move Player.IA)
                    (depth + 1) md alpha beta true then
                  false
                else
                  let beta' := XQ.min beta (XQ.fin 1)
                  if XQ.le beta' alpha then true else k beta')
              (fun _ => true)) beta =
            l.all fun move =>
              minimax_plain_fuel fuel (s.copy_with_move move Player.IA)
                (depth + 1) md true := by
          intro l
          induction l with
          | nil => intro beta _; rfl
          | cons m t iht =>
            intro beta hb'
            simp only [List.foldr_cons, List.all_cons]
            rw [ih _ _ _ _ _ _ ha hb']
            by_cases hrec :
              minimax_plain_fuel fuel (s.copy_with_move m Player.IA)
                (depth + 1) md true
            · simp only [hrec, Bool.not_true, if_false, Bool.true_and]
              rw [xq_min_one_of_le hb', xq_le_one_alpha_false ha, if_neg (by simp)]
              exact iht (XQ.fin 1) xq_le_one_one
            · simp only [Bool.not_eq_true] at hrec
              simp [hrec]
        exact hH s.available_moves beta hb

/-- Claim C10 (implicit): at the initial window
`(-inf, +inf)` the alpha and beta parameters never influence the
result — the cutoff `beta <= alpha` never fires, so
`minimax_alpha_beta` equals the plain boolean minimax recursion with
the two cutoff branches removed. -/
theorem claim_C10_alpha_beta_never_cuts (s : GameState)
    (depth max_depth : Int) (is_ia : Bool) :
    minimax_alpha_beta s depth max_depth XQ.negInf XQ.posInf is_ia =
      minimax_plain s depth max_depth is_ia :=
  minimax_ab_eq_plain _ s depth max_depth XQ.negInf XQ.posInf is_ia rfl rfl

lemma length_filter_le_mono {α : Type} {p q : α → Bool}
    (h : ∀ x, q x = true → p x = true) :
    ∀ l : List α, (l.filter q).length ≤ (l.filter p).length := by
  intro l
  induction l with
  | nil => simp
  | cons a t iht =>
    by_cases hq : q a = true
    · simp only [List.filter_cons, hq, h a hq, if_true, List.length_cons]
      omega
    · rw [Bool.not_eq_true] at hq
      by_cases hp : p a = true
      · simp only [List.filter_cons, hq, hp]
        simp only [Bool.false_eq_true, if_false, if_true, List.length_cons]
        omega
      · rw [Bool.not_eq_true] at hp
        simp only [List.filter_cons, hq, hp, Bool.false_eq_true, if_false]
        exact iht

lemma length_filter_lt_mono {α : Type} {p q : α → Bool}
    (h : ∀ x, q x = true → p x = true) {a : α} :
    ∀ {l : List α}, a ∈ l → p a = true → q a = false →
      (l.filter q).length < (l.filter p).length := by
  intro l
  induction l with
  | nil => intro ha; cases ha
  | cons b t iht =>
    intro ha hpa hqa
    rcases List.mem_cons.1 ha with rfl | hmem
    · simp only [List.filter_cons, hpa, hqa, if_true, Bool.false_eq_true,
        if_false, List.length_cons]
      have := length_filter_le_mono h t
      omega
    · by_cases hqb : q b = true
      · simp only [List.filter_cons, hqb, h b hqb, if_true, List.length_cons]
        have := iht hmem hpa hqa
        omega
      · rw [Bool.not_eq_true] at hqb
        by_cases hpb : p b = true
        · simp only [List.filter_cons, hqb, hpb, Bool.false_eq_true, if_false,
            if_true, List.length_cons]
          have := iht hmem hpa hqa
          omega
        · rw [Bool.not_eq_true] at hpb
          simp only [List.filter_cons, hqb, hpb, Bool.false_eq_true, if_false]
          exact iht hmem hpa hqa

lemma unplayed_lt {s : GameState} {m : Nat} (hm : m ∈ s.available_moves)
    (p : Player) :
    (s.copy_with_move m p).unplayed_count < s.unplayed_count := by
  obtain ⟨h1, h2, h3⟩ := mem_available_facts hm
  have himp : ∀ x : Nat, (!(s.moves ++ [m]).contains x) = true →
      (!s.moves.contains x) = true := by
    intro x hx
    simp only [List.contains, List.elem_eq_mem, List.mem_append,
      List.mem_singleton, Bool.not_eq_true', decide_eq_false_iff_not] at hx ⊢
    intro hmem
    exact hx (Or.inl hmem)
  have hmem : m ∈ List.range' 1 s.max_n := List.mem_range'_1.2 ⟨h1, by omega⟩
  have hp : (!s.moves.contains m) = true := by
    simp only [List.contains, List.elem_eq_mem, Bool.not_eq_true',
      decide_eq_false_iff_not]
    exact h3
  have hq : (!(s.moves ++ [m]).contains m) = false := by
    simp [List.contains, List.elem_eq_mem]
  exact length_filter_lt_mono himp hmem hp hq

lemma unplayed_pos {s : GameState} (h : s.available_moves.isEmpty = false) :
    1 ≤ s.unplayed_count := by
  have hne : s.available_moves ≠ [] := by
    simpa [List.isEmpty_iff] using h
  obtain ⟨m, hm⟩ := List.exists_mem_of_ne_nil _ hne
  obtain ⟨h1, h2, h3⟩ := mem_available_facts hm
  have hmem : m ∈ (List.range' 1 s.max_n).filter (fun x => !s.moves.contains x) := by
    simp only [List.mem_filter, List.mem_range'_1, List.contains,
      List.elem_eq_mem, Bool.not_eq_true', decide_eq_false_iff_not]
    exact ⟨⟨h1, by omega⟩, h3⟩
  have := List.length_pos.2 (List.ne_nil_of_mem hmem)
  exact this

lemma minimax_ab_eq_exact (fuel : Nat) :
    ∀ (s : GameState) (depth max_depth : Int) (alpha beta : XQ) (is_ia : Bool),
      XQ.le alpha (XQ.fin 0) = true → XQ.le (XQ.fin 1) beta = true →
      depth + (s.unplayed_count : Int) ≤ 99 →
      (max_depth = 99 ∨
        (s.available_moves.isEmpty = false ∧ depth < max_depth ∧
          s.available_moves.length ≤ 5)) →
      minimax_ab fuel s depth max_depth alpha beta is_ia =
        solve_exact_fuel fuel s is_ia := by
  induction fuel with
  | zero => intro s depth max_depth alpha beta is_ia _ _ _ _; rfl
  | succ fuel ih =>
    intro s depth max_depth alpha beta is_ia ha hb hd99 hmd
    by_cases hemp : s.available_moves.isEmpty = true
    · rw [minimax_ab, solve_exact_fuel]
      simp [hemp]
    · rw [Bool.not_eq_true] at hemp
      have h1le : 1 ≤ s.unplayed_count := unplayed_pos hemp
      have hdep : ¬(depth ≥ max_depth) := by
        rcases hmd with h99 | ⟨_, hlt, _⟩
        · rw [h99]; omega
        · omega
      rw [minimax_ab, solve_exact_fuel]
      have hdec : decide (depth ≥ max_depth) = false := decide_eq_false hdep
      have hmd99 :
          (if s.available_moves.length ≤ 5 then (99 : Int) else max_depth) = 99 := by
        rcases hmd with h99 | ⟨_, _, h5⟩
        · rw [h99]; split <;> rfl
        · rw [if_pos h5]
      simp only [hemp, hdec, Bool.false_or, Bool.false_eq_true, if_false, hmd99]
      cases is_ia with
      | true =>
        simp only [if_true]
        have hIA : ∀ (l : List Nat), (∀ m ∈ l, m ∈ s.available_moves) →
            ∀ (alpha : XQ), XQ.le alpha (XQ.fin 0) = true →
            (l.foldr
              (fun move k => fun alpha =>
                if minimax_ab fuel (s.copy_with_move move Player.HUMAN)
                    (depth + 1) 99 alpha beta false then
                  true
                else
                  let alpha' := XQ.max alpha (XQ.fin 0)
                  if XQ.le beta alpha' then false else k alpha')
              (fun _ => false)) alpha =
            l.any fun move =>
              solve_exact_fuel fuel (s.copy_with_move move Player.HUMAN) false := by
          intro l
          induction l with
          | nil => intro _ alpha _; rfl
          | cons m t iht =>
            intro hsub alpha ha'
            have hmem : m ∈ s.available_moves := hsub m (List.mem_cons_self m t)
            have hlt := unplayed_lt hmem Player.HUMAN
            have hd99' :
                depth + 1 + ((s.copy_with_move m Player.HUMAN).unplayed_count : Int) ≤ 99 := by
              omega
            simp only [List.foldr_cons, List.any_cons]
            rw [ih _ _ _ _ _ _ ha' hb hd99' (Or.inl rfl)]
            by_cases hrec :
              solve_exact_fuel fuel (s.copy_with_move m Player.HUMAN) false
            · simp [hrec]
            · simp only [hrec, if_false, Bool.false_or]
              rw [xq_max_zero_of_le ha', xq_le_beta_zero_false hb, if_neg (by simp)]
              exact iht (fun x hx => hsub x (List.mem_cons_of_mem m hx))
                (XQ.fin 0) xq_le_zero_zero
        exact hIA s.available_moves (fun x hx => hx) alpha ha
      | false =>
        simp only [Bool.false_eq_true, if_false]
        have hH : ∀ (l : List Nat), (∀ m ∈ l, m ∈ s.available_moves) →
            ∀ (beta : XQ), XQ.le (XQ.fin 1) beta = true →
            (l.foldr
              (fun move k => fun beta =>
                if !minimax_ab fuel (s.copy_with_move move Player.IA)
                    (depth + 1) 99 alpha beta true then
                  false
                else
                  let beta' := XQ.min beta (XQ.fin 1)
                  if XQ.le beta' alpha then true else k beta')
              (fun _ => true)) beta =
            l.all fun move =>
              solve_exact_fuel fuel (s.copy_with_move move Player.IA) true := by
          intro l
          induction l with
          | nil => intro _ beta _; rfl
          | cons m t iht =>
            intro hsub beta hb'
            have hmem : m ∈ s.available_moves := hsub m (List.mem_cons_self m t)
            have hlt := unplayed_lt hmem Player.IA
            have hd99' :
                depth + 1 + ((s.copy_with_move m Player.IA).unplayed_count : Int) ≤ 99 := by
              omega
            simp only [List.foldr_cons, List.all_cons]
            rw [ih _ _ _ _ _ _ ha hb' hd99' (Or.inl rfl)]
            by_cases hrec :
              solve_exact_fuel fuel (s.copy_with_move m Player.IA) true
            · simp only [hrec, Bool.not_true, Bool.false_eq_true, if_false,
                Bool.true_and]
              rw [xq_min_one_of_le hb', xq_le_one_alpha_false ha, if_neg (by simp)]
              exact iht (fun x hx => hsub x (List.mem_cons_of_mem m hx))
                (XQ.fin 1) xq_le_one_one
            · simp only [Bool.not_eq_true] at hrec
              simp [hrec]
        exact hH s.available_moves (fun x hx => hx) beta hb

/-- Counterexample to claim C6 as stated: the state `[2]` on grid
`N = 2` is not finished and has one (`<= 5`) available move, yet with
`depth = 0, max_depth = 0` the solver truncates (the
`depth >= max_depth` check runs before the end-game extension) and
returns `false` for the side to move although the exact value is
`true`. -/
theorem claim_C6_counterexample :
    (GameState.mk [2] Player.HUMAN 2 false).is_finished = false ∧
    (GameState.mk [2] Player.HUMAN 2 false).available_moves.length ≤ 5 ∧
    minimax_alpha_beta (GameState.mk [2] Player.HUMAN 2 false) 0 0
      XQ.negInf XQ.posInf true = false ∧
    solve_exact (GameState.mk [2] Player.HUMAN 2 false) true = true :=
  ⟨by decide, by decide, by decide, by decide⟩

/-- Claim C6 (amended): for a non-finished state with at most 5
available moves the solver equals the exact unbounded-depth minimax
value provided the entry call is not already truncated
(`depth < max_depth`) and the forced `max_depth = 99` cannot itself
truncate (`depth` plus the number of unplayed grid numbers stays
`<= 99`). -/
theorem claim_C6_endgame_extension_exact (s : GameState)
    (depth max_depth : Int) (is_ia : Bool)
    (hfin : s.is_finished = false) (h5 : s.available_moves.length ≤ 5)
    (hdm : depth < max_depth)
    (hd99 : depth + (s.unplayed_count : Int) ≤ 99) :
    minimax_alpha_beta s depth max_depth XQ.negInf XQ.posInf is_ia =
      solve_exact s is_ia := by
  have hemp : s.available_moves.isEmpty = false := by
    rw [GameState.is_finished] at hfin
    rw [List.isEmpty_eq_false_iff_exists_mem]
    rcases List.exists_mem_of_ne_nil s.available_moves
      (by
        intro hnil
        rw [hnil] at hfin
        simp at hfin) with ⟨m, hm⟩
    exact ⟨m, hm⟩
  exact minimax_ab_eq_exact _ s depth max_depth XQ.negInf XQ.posInf is_ia
    rfl rfl hd99 (Or.inr ⟨hemp, hdm, h5⟩)

/-- Witness for the amended C6 at a concrete input. -/
theorem claim_C6_witness :
    (GameState.mk [2] Player.HUMAN 4 false).is_finished = false ∧
    minimax_alpha_beta (GameState.mk [2] Player.HUMAN 4 false) 0 3
      XQ.negInf XQ.posInf true =
      solve_exact (GameState.mk [2] Player.HUMAN 4 false) true :=
  ⟨by decide,
   claim_C6_endgame_extension_exact (GameState.mk [2] Player.HUMAN 4 false)
     0 3 true (by decide) (by decide) (by decide) (by decide)⟩

lemma lookup_store_update_ne {st : KStore} {key k : SeqKey} {e : SeqEntry}
    (h : key ≠ k) :
    lookup_seq (store_update st key e) k = lookup_seq st k := by
  induction st with
  | nil => rfl
  | cons p rest ih =>
    rw [store_update]
    by_cases hp : p.1 = key
    · rw [if_pos hp, lookup_seq, lookup_seq, if_neg (by rw [hp]; exact h),
        if_neg (by rw [hp]; exact h)]
    · rw [if_neg hp, lookup_seq, lookup_seq]
      by_cases hk : p.1 = k
      · rw [if_pos hk, if_pos hk]
      · rw [if_neg hk, if_neg hk]
        exact ih

lemma lookup_store_update_self {st : KStore} {k : SeqKey} {e e' : SeqEntry}
    (h : lookup_seq st k = some e) :
    lookup_seq (store_update st k e') k = some e' := by
  induction st with
  | nil => cases h
  | cons p rest ih =>
    rw [lookup_seq] at h
    rw [store_update]
    by_cases hp : p.1 = k
    · rw [if_pos hp, lookup_seq, if_pos hp]
    · rw [if_neg hp, lookup_seq, if_neg hp]
      rw [if_neg hp] at h
      exact ih h

lemma lookup_none_store_update {st : KStore} {key q : SeqKey} {e' : SeqEntry}
    (h : lookup_seq st q = none) :
    lookup_seq (store_update st key e') q = none := by
  induction st with
  | nil => rfl
  | cons p rest ih =>
    rw [lookup_seq] at h
    by_cases hp : p.1 = q
    · rw [if_pos hp] at h
      cases h
    · rw [if_neg hp] at h
      rw [store_update]
      by_cases hk : p.1 = key
      · rw [if_pos hk, lookup_seq, if_neg (hk ▸ hp)]
        exact h
      · rw [if_neg hk, lookup_seq, if_neg hp]
        exact ih h

lemma lookup_store_insert {st : KStore} {key k : SeqKey} {e : SeqEntry} :
    lookup_seq (store_insert st key e) k =
      match lookup_seq st k with
      | some e' => some e'
      | none => if key = k then some e else none := by
  induction st with
  | nil => rfl
  | cons p rest ih =>
    rw [store_insert, List.cons_append, lookup_seq, lookup_seq]
    by_cases hp : p.1 = k
    · rw [if_pos hp, if_pos hp]
    · rw [if_neg hp, if_neg hp]
      exact ih

lemma prop_step_cases (N : Nat) (acc : KStore × Bool) (key : SeqKey) :
    prop_step N acc key = acc ∨
    ∃ e', prop_step N acc key = (store_update acc.1 key e', true) := by
  rw [prop_step]
  cases lookup_seq acc.1 key with
  | none => exact Or.inl rfl
  | some seq =>
    dsimp only
    split
    · exact Or.inl rfl
    · split
      · exact Or.inl rfl
      · split
        · exact Or.inl rfl
        · split
          · exact Or.inr ⟨_, rfl⟩
          · split
            · exact Or.inr ⟨_, rfl⟩
            · exact Or.inl rfl

lemma prop_step_skip {N : Nat} {acc : KStore × Bool} {key : SeqKey}
    {e : SeqEntry} (hl : lookup_seq acc.1 key = some e)
    (hc : (99 : ℚ) / 100 ≤ e.confidence) :
    prop_step N acc key = acc := by
  rw [prop_step, hl]
  dsimp only
  rw [if_pos hc]

lemma prop_step_frame {N : Nat} {acc : KStore × Bool} {key k : SeqKey}
    (h : key ≠ k) :
    lookup_seq (prop_step N acc key).1 k = lookup_seq acc.1 k := by
  rcases prop_step_cases N acc key with hcase | ⟨e', hcase⟩
  · rw [hcase]
  · rw [hcase]
    exact lookup_store_update_ne h

lemma prop_step_protect {N : Nat} {acc : KStore × Bool} {key k : SeqKey}
    {e : SeqEntry} (hl : lookup_seq acc.1 k = some e)
    (hc : (99 : ℚ) / 100 ≤ e.confidence) :
    lookup_seq (prop_step N acc key).1 k = some e := by
  by_cases hk : key = k
  · subst hk
    rw [prop_step_skip hl hc]
    exact hl
  · rw [prop_step_frame hk]
    exact hl

lemma prop_step_none {N : Nat} {acc : KStore × Bool} {key q : SeqKey}
    (h : lookup_seq acc.1 q = none) :
    lookup_seq (prop_step N acc key).1 q = none := by
  rcases prop_step_cases N acc key with hcase | ⟨e', hcase⟩
  · rw [hcase]
    exact h
  · rw [hcase]
    exact lookup_none_store_update h

lemma foldl_prop_step_protect {N : Nat} {k : SeqKey} {e : SeqEntry}
    (hc : (99 : ℚ) / 100 ≤ e.confidence) :
    ∀ (keys : List SeqKey) (acc : KStore × Bool),
      lookup_seq acc.1 k = some e →
      lookup_seq (keys.foldl (prop_step N) acc).1 k = some e := by
  intro keys
  induction keys with
  | nil => intro acc h; exact h
  | cons key rest ih =>
    intro acc h
    rw [List.foldl_cons]
    exact ih _ (prop_step_protect h hc)

lemma propagate_loop_protect {N : Nat} {k : SeqKey} {e : SeqEntry}
    (hc : (99 : ℚ) / 100 ≤ e.confidence) :
    ∀ (fuel : Nat) (store : KStore), lookup_seq store k = some e →
      lookup_seq (propagate_loop N fuel store).1 k = some e := by
  intro fuel
  induction fuel with
  | zero => intro store h; exact h
  | succ n ih =>
    intro store h
    rw [propagate_loop]
    have hpass : lookup_seq (prop_pass N store).1 k = some e :=
      foldl_prop_step_protect hc _ _ h
    by_cases hch : (prop_pass N store).2 = true
    · rw [if_pos hch]
      exact ih _ hpass
    · rw [if_neg hch]
      exact hpass

/-- Claim C2: a terminal entry (confidence `1.0`) is immutable — every
later `update_sequence` call on its key (with any arguments) and every
`propagate_certainties` call leaves the stored entry unchanged. -/
theorem claim_C2_terminal_entries_immutable (store : KStore) (k : SeqKey)
    (e : SeqEntry) (N : Nat) (outcome : String) (confidence : ℚ)
    (depth : Int) (is_terminal : Bool)
    (hl : lookup_seq store k = some e) (ht : e.is_terminal = true)
    (hc : e.confidence = 1) :
    lookup_seq (update_sequence store k outcome confidence depth is_terminal) k =
      some e ∧
    lookup_seq (propagate_certainties N store).1 k = some e := by
  constructor
  · rw [update_sequence, hl]
    simp only [ht, if_true]
    exact hl
  · exact propagate_loop_protect (by rw [hc]; norm_num) 10 store hl

/-- Witness for C2 at a concrete store. -/
theorem claim_C2_witness :
    lookup_seq [([2, 1], (⟨"lose", 1, 99, 0, 1, 1, true⟩ : SeqEntry))] [2, 1] =
      some ⟨"lose", 1, 99, 0, 1, 1, true⟩ ∧
    lookup_seq
      (update_sequence [([2, 1], ⟨"lose", 1, 99, 0, 1, 1, true⟩)] [2, 1]
        "win" (1 / 2) 3 false) [2, 1] = some ⟨"lose", 1, 99, 0, 1, 1, true⟩ :=
  ⟨rfl,
   (claim_C2_terminal_entries_immutable
     [([2, 1], ⟨"lose", 1, 99, 0, 1, 1, true⟩)] [2, 1]
     ⟨"lose", 1, 99, 0, 1, 1, true⟩ 2 "win" (1 / 2) 3 false rfl rfl rfl).1⟩

/-- Counterexample to claim C7 as stated: a single `update_sequence`
call from the empty store (the exact call `_validate_move` makes for a
key ending in `1`) creates a non-terminal entry whose confidence
`0.99` exceeds the claimed `0.98` cap, because entry creation stores
the caller-supplied confidence verbatim. -/
theorem claim_C7_counterexample :
    lookup_seq (update_sequence [] [2] "lose" (99 / 100) 1 false) [2] =
      some ⟨"lose", 99 / 100, 1, 0, 1, 1, false⟩ ∧
    ¬((99 : ℚ) / 100 ≤ 98 / 100) :=
  ⟨by with_unfolding_all decide, by norm_num⟩

lemma stat_updated_fields (seq : SeqEntry) (outcome : String) (depth : Int) :
    (stat_updated seq outcome depth).confidence ≤ 98 / 100 ∧
    (stat_updated seq outcome depth).is_terminal = seq.is_terminal := by
  rw [stat_updated]
  refine ⟨?_, rfl⟩
  dsimp only
  split_ifs <;>
    first
      | norm_num
      | exact le_trans (min_le_left _ _) (by norm_num)

lemma conf_inv_update {st : KStore} (h : conf_inv st) (key : SeqKey)
    (outcome : String) (confidence : ℚ) (depth : Int) (is_terminal : Bool) :
    conf_inv (update_sequence st key outcome confidence depth is_terminal) := by
  intro k e hl ht hv
  rw [update_sequence] at hl
  cases hcase : lookup_seq st key with
  | none =>
    rw [hcase] at hl
    dsimp only at hl
    rw [lookup_store_insert] at hl
    cases hk : lookup_seq st k with
    | some e0 =>
      rw [hk] at hl
      dsimp only at hl
      cases hl
      exact h k _ hk ht hv
    | none =>
      rw [hk] at hl
      dsimp only at hl
      by_cases hkey : key = k
      · rw [if_pos hkey] at hl
        cases hl
        simp at hv
      · rw [if_neg hkey] at hl
        cases hl
  | some seq =>
    rw [hcase] at hl
    dsimp only at hl
    by_cases hterm : seq.is_terminal = true
    · rw [if_pos hterm] at hl
      exact h k e hl ht hv
    · rw [if_neg hterm] at hl
      by_cases hit : is_terminal = true
      · rw [if_pos hit] at hl
        by_cases hkey : key = k
        · subst hkey
          rw [lookup_store_update_self hcase] at hl
          cases hl
          simp at ht
        · rw [lookup_store_update_ne hkey] at hl
          exact h k e hl ht hv
      · rw [if_neg hit] at hl
        by_cases hkey : key = k
        · subst hkey
          rw [lookup_store_update_self hcase] at hl
          cases hl
          exact (stat_updated_fields seq outcome depth).1
        · rw [lookup_store_update_ne hkey] at hl
          exact h k e hl ht hv

lemma conf_inv_apply_calls (calls : List WriteRec) :
    conf_inv (apply_update_calls calls) := by
  have hgen : ∀ (cs : List WriteRec) (st : KStore), conf_inv st →
      conf_inv (cs.foldl
        (fun st c =>
          update_sequence st c.key c.outcome c.confidence c.depth c.is_terminal)
        st) := by
    intro cs
    induction cs with
    | nil => intro st h; exact h
    | cons c rest ih =>
      intro st h
      rw [List.foldl_cons]
      exact ih _ (conf_inv_update h c.key c.outcome c.confidence c.depth c.is_terminal)
  exact hgen calls [] (fun k e hl => by cases hl)

/-- Claim C7 (amended): replaying any sequence of `update_sequence`
calls from an empty store, every non-terminal entry that has received
at least one statistical recomputation (`verified_count >= 2`) has
confidence at most `0.98`; a freshly created non-terminal entry
instead carries the caller-supplied confidence verbatim (which the
engine sometimes passes as `0.99`). -/
theorem claim_C7_nonterminal_confidence_cap (calls : List WriteRec)
    (k : SeqKey) (e : SeqEntry)
    (hl : lookup_seq (apply_update_calls calls) k = some e)
    (ht : e.is_terminal = false) (hv : 2 ≤ e.verified_count) :
    e.confidence ≤ 98 / 100 :=
  conf_inv_apply_calls calls k e hl ht hv

/-- Witness for the amended C7 at a concrete call sequence. -/
theorem claim_C7_witness :
    lookup_seq
      (apply_update_calls
        [⟨[2], "win", 1 / 2, 20, false⟩, ⟨[2], "win", 1 / 2, 20, false⟩]) [2] =
      some ⟨"win", 98 / 100, 20, 2, 0, 2, false⟩ ∧
    (98 : ℚ) / 100 ≤ 98 / 100 :=
  ⟨by with_unfolding_all decide,
   claim_C7_nonterminal_confidence_cap
     [⟨[2], "win", 1 / 2, 20, false⟩, ⟨[2], "win", 1 / 2, 20, false⟩] [2]
     ⟨"win", 98 / 100, 20, 2, 0, 2, false⟩ (by with_unfolding_all decide) rfl
     (by norm_num)⟩

/-- Counterexample to claim C8 as stated: the parent `[2]` has a
legal move `1` whose child entry is present with
`is_terminal = false`, yet `propagate_certainties` changes the parent
(the code gates on child confidence `>= 0.99`, not on the terminal
flag, and `0.99` non-terminal children count as explored). -/
theorem claim_C8_counterexample :
    1 ∈ (GameState.mk [2] Player.HUMAN 2 false).available_moves ∧
    lookup_seq c8_store [2, 1] = some ⟨"win", 99 / 100, 1, 1, 0, 1, false⟩ ∧
    lookup_seq c8_store [2] = some ⟨"lose", 1 / 2, 1, 0, 1, 1, false⟩ ∧
    lookup_seq (propagate_certainties 2 c8_store).1 [2] =
      some ⟨"lose", 1, 1, 0, 1, 1, true⟩ :=
  ⟨by decide, by with_unfolding_all decide, by with_unfolding_all decide,
   by with_unfolding_all decide⟩

lemma prop_step_missing_child {N : Nat} {k : SeqKey} {m : Nat} {e : SeqEntry}
    (hm : m ∈ (GameState.mk k Player.HUMAN N false).available_moves)
    {acc : KStore × Bool} {key : SeqKey}
    (hl : lookup_seq acc.1 k = some e)
    (hmiss : lookup_seq acc.1 (k ++ [m]) = none) :
    lookup_seq (prop_step N acc key).1 k = some e ∧
    lookup_seq (prop_step N acc key).1 (k ++ [m]) = none := by
  refine ⟨?_, prop_step_none hmiss⟩
  by_cases hk : key = k
  · subst hk
    rw [prop_step, hl]
    dsimp only
    split
    · exact hl
    · rw [if_neg (List.ne_nil_of_mem hm)]
      have hexp :
          ((GameState.mk key Player.HUMAN N false).available_moves.all fun next_move =>
            match lookup_seq acc.1 (key ++ [next_move]) with
            | some child => decide ((99 : ℚ) / 100 ≤ child.confidence)
            | none => false) = false := by
        rw [List.all_eq_false]
        refine ⟨m, hm, ?_⟩
        rw [hmiss]
        simp
      rw [hexp]
      simp only [Bool.not_false, if_true]
      exact hl
  · rw [prop_step_frame hk]
    exact hl

lemma foldl_prop_step_missing_child {N : Nat} {k : SeqKey} {m : Nat}
    {e : SeqEntry}
    (hm : m ∈ (GameState.mk k Player.HUMAN N false).available_moves) :
    ∀ (keys : List SeqKey) (acc : KStore × Bool),
      lookup_seq acc.1 k = some e →
      lookup_seq acc.1 (k ++ [m]) = none →
      lookup_seq (keys.foldl (prop_step N) acc).1 k = some e ∧
      lookup_seq (keys.foldl (prop_step N) acc).1 (k ++ [m]) = none := by
  intro keys
  induction keys with
  | nil => intro acc h1 h2; exact ⟨h1, h2⟩
  | cons key rest ih =>
    intro acc h1 h2
    rw [List.foldl_cons]
    obtain ⟨h1', h2'⟩ := prop_step_missing_child hm h1 h2
    exact ih _ h1' h2'

lemma propagate_loop_missing_child {N : Nat} {k : SeqKey} {m : Nat}
    {e : SeqEntry}
    (hm : m ∈ (GameState.mk k Player.HUMAN N false).available_moves) :
    ∀ (fuel : Nat) (store : KStore),
      lookup_seq store k = some e →
      lookup_seq store (k ++ [m]) = none →
      lookup_seq (propagate_loop N fuel store).1 k = some e := by
  intro fuel
  induction fuel with
  | zero => intro store h1 _; exact h1
  | succ n ih =>
    intro store h1 h2
    rw [propagate_loop]
    obtain ⟨h1', h2'⟩ := foldl_prop_step_missing_child hm _ (store, false) h1 h2
    by_cases hch : (prop_pass N store).2 = true
    · rw [if_pos hch]
      exact ih _ h1' h2'
    · rw [if_neg hch]
      exact h1'

/-- Claim C8 (amended): an entry one of whose legal children is
entirely missing from the store is left unchanged by
`propagate_certainties` (a missing child can never be created by the
pass, so the parent stays untouched across the whole call).  Children
that are merely non-terminal do not protect the parent: the code
tests child confidence `>= 0.99`, not the terminal flag. -/
theorem claim_C8_missing_child_frame (N : Nat) (store : KStore) (k : SeqKey)
    (m : Nat) (e : SeqEntry)
    (hm : m ∈ (GameState.mk k Player.HUMAN N false).available_moves)
    (hmiss : lookup_seq store (k ++ [m]) = none)
    (hl : lookup_seq store k = some e) :
    lookup_seq (propagate_certainties N store).1 k = some e :=
  propagate_loop_missing_child hm 10 store hl hmiss

/-- Witness for the amended C8 at a concrete store. -/
theorem claim_C8_witness :
    lookup_seq [([2], (⟨"win", 1 / 2, 1, 1, 0, 1, false⟩ : SeqEntry))] [2, 1] =
      none ∧
    lookup_seq
      (propagate_certainties 2 [([2], ⟨"win", 1 / 2, 1, 1, 0, 1, false⟩)]).1 [2] =
      some ⟨"win", 1 / 2, 1, 1, 0, 1, false⟩ :=
  ⟨rfl,
   claim_C8_missing_child_frame 2 [([2], ⟨"win", 1 / 2, 1, 1, 0, 1, false⟩)]
     [2] 1 ⟨"win", 1 / 2, 1, 1, 0, 1, false⟩ (by decide) rfl rfl⟩

lemma lookup_some_mem_keys {st : KStore} {k : SeqKey} {e : SeqEntry}
    (h : lookup_seq st k = some e) : k ∈ st.map Prod.fst := by
  induction st with
  | nil => cases h
  | cons p rest ih =>
    rw [lookup_seq] at h
    by_cases hp : p.1 = k
    · rw [List.map_cons]
      exact hp ▸ List.mem_cons_self _ _
    · rw [if_neg hp] at h
      exact List.mem_cons_of_mem _ (ih h)

lemma count_win_lose {l : List String} (h : ∀ o ∈ l, o = "win" ∨ o = "lose") :
    l.count "win" + l.count "lose" = l.length := by
  induction l with
  | nil => rfl
  | cons a t ih =>
    have ha := h a (List.mem_cons_self a t)
    have ht := ih (fun o ho => h o (List.mem_cons_of_mem a ho))
    rcases ha with ha | ha <;>
      subst ha <;>
      simp [List.count_cons] <;> omega

lemma mem_child_outcomes {N : Nat} {st : KStore} {k : SeqKey}
    (hch : ∀ m ∈ (GameState.mk k Player.HUMAN N false).available_moves,
      ∃ ce, lookup_seq st (k ++ [m]) = some ce ∧
        (99 : ℚ) / 100 ≤ ce.confidence ∧
        (ce.outcome = "win" ∨ ce.outcome = "lose")) :
    ∀ o ∈ child_outcomes_of N st k, o = "win" ∨ o = "lose" := by
  intro o ho
  rw [child_outcomes_of, List.mem_filterMap] at ho
  obtain ⟨m, hm, hmap⟩ := ho
  obtain ⟨ce, hce, _, hwl⟩ := hch m hm
  rw [hce] at hmap
  cases hmap
  exact hwl

lemma prop_step_promote {N : Nat} {st : KStore} {ch : Bool} {k : SeqKey}
    {e : SeqEntry}
    (hl : lookup_seq st k = some e)
    (hconf : ¬(99 : ℚ) / 100 ≤ e.confidence)
    (havail : (GameState.mk k Player.HUMAN N false).available_moves ≠ [])
    (hch : ∀ m ∈ (GameState.mk k Player.HUMAN N false).available_moves,
      ∃ ce, lookup_seq st (k ++ [m]) = some ce ∧
        (99 : ℚ) / 100 ≤ ce.confidence ∧
        (ce.outcome = "win" ∨ ce.outcome = "lose")) :
    prop_step N (st, ch) k =
      (store_update st k
        { e with
          outcome :=
            if (child_outcomes_of N st k).count "lose" =
                (child_outcomes_of N st k).length then "win"
            else "lose"
          confidence := 1
          is_terminal := true }, true) := by
  rw [prop_step, hl]
  dsimp only
  rw [if_neg hconf, if_neg havail]
  have hexp :
      ((GameState.mk k Player.HUMAN N false).available_moves.all fun next_move =>
        match lookup_seq st (k ++ [next_move]) with
        | some child => decide ((99 : ℚ) / 100 ≤ child.confidence)
        | none => false) = true := by
    rw [List.all_eq_true]
    intro m hm
    obtain ⟨ce, hce, hcc, _⟩ := hch m hm
    rw [hce]
    simpa using hcc
  rw [hexp]
  simp only [Bool.not_true, Bool.false_eq_true, if_false]
  have hwl := mem_child_outcomes hch
  have hcount := count_win_lose hwl
  by_cases hcl :
      (child_outcomes_of N st k).count "lose" =
        (child_outcomes_of N st k).length
  · rw [child_outcomes_of] at hcl
    rw [if_pos hcl]
    rw [child_outcomes_of, if_pos hcl]
  · rw [child_outcomes_of] at hcl
    rw [if_neg hcl]
    have hwin : 1 ≤ (child_outcomes_of N st k).count "win" := by
      rw [child_outcomes_of] at hcount ⊢
      omega
    rw [child_outcomes_of] at hwin
    rw [if_pos hwin]
    rw [child_outcomes_of, if_neg hcl]

lemma foldl_prop_step_parent_inv {N : Nat} {k : SeqKey} {e : SeqEntry}
    {store : KStore}
    (hch : ∀ m ∈ (GameState.mk k Player.HUMAN N false).available_moves,
      ∃ ce, lookup_seq store (k ++ [m]) = some ce ∧
        (99 : ℚ) / 100 ≤ ce.confidence ∧
        (ce.outcome = "win" ∨ ce.outcome = "lose")) :
    ∀ (keys : List SeqKey), (∀ x ∈ keys, x ≠ k) →
    ∀ (acc : KStore × Bool),
      lookup_seq acc.1 k = some e →
      (∀ m ∈ (GameState.mk k Player.HUMAN N false).available_moves,
        lookup_seq acc.1 (k ++ [m]) = lookup_seq store (k ++ [m])) →
      lookup_seq (keys.foldl (prop_step N) acc).1 k = some e ∧
      (∀ m ∈ (GameState.mk k Player.HUMAN N false).available_moves,
        lookup_seq (keys.foldl (prop_step N) acc).1 (k ++ [m]) =
          lookup_seq store (k ++ [m])) := by
  intro keys
  induction keys with
  | nil => intro _ acc h1 h2; exact ⟨h1, h2⟩
  | cons key rest ih =>
    intro hne acc h1 h2
    rw [List.foldl_cons]
    have hkey : key ≠ k := hne key (List.mem_cons_self key rest)
    have h1' : lookup_seq (prop_step N acc key).1 k = some e := by
      rw [prop_step_frame hkey]
      exact h1
    have h2' : ∀ m ∈ (GameState.mk k Player.HUMAN N false).available_moves,
        lookup_seq (prop_step N acc key).1 (k ++ [m]) =
          lookup_seq store (k ++ [m]) := by
      intro m hm
      obtain ⟨ce, hce, hcc, _⟩ := hch m hm
      have hacc : lookup_seq acc.1 (k ++ [m]) = some ce := by
        rw [h2 m hm, hce]
      rw [prop_step_protect hacc hcc, hce]
    exact ih (fun x hx => hne x (List.mem_cons_of_mem key hx)) _ h1' h2'

/-- Counterexample to claim C3 as stated: the parent `[2]` (grid 2)
is non-terminal, has the single legal move `1`, and its child `[2,1]`
carries a terminal entry — yet `propagate_certainties` leaves the
parent unchanged, because the pass skips every entry whose confidence
is already `>= 0.99` and the parent sits at exactly `0.99`. -/
theorem claim_C3_counterexample :
    lookup_seq c3_store [2] = some ⟨"win", 99 / 100, 1, 1, 0, 1, false⟩ ∧
    lookup_seq c3_store [2, 1] = some ⟨"win", 1, 99, 1, 0, 1, true⟩ ∧
    (GameState.mk [2] Player.HUMAN 2 false).available_moves = [1] ∧
    lookup_seq (propagate_certainties 2 c3_store).1 [2] =
      some ⟨"win", 99 / 100, 1, 1, 0, 1, false⟩ :=
  ⟨by with_unfolding_all decide, by with_unfolding_all decide, by decide,
   by with_unfolding_all decide⟩

/-- Claim C3 (amended): for a store with distinct keys, every entry
with confidence `< 0.99` whose position has at least one legal move
and all of whose legal children carry entries with confidence
`>= 0.99` and outcome `win`/`lose` — whether those child entries are
terminal (they then carry confidence `1.0`) or merely non-terminal at
`0.99`, as written by `_validate_move` — is promoted by one call to
`propagate_certainties` to a terminal certainty: outcome `win` when
every child outcome is `lose`, else `lose`. -/
theorem claim_C3_propagation_closure (N : Nat) (store : KStore) (k : SeqKey)
    (e : SeqEntry)
    (hnodup : (store.map Prod.fst).Nodup)
    (hl : lookup_seq store k = some e)
    (hconf : e.confidence < 99 / 100)
    (havail : (GameState.mk k Player.HUMAN N false).available_moves ≠ [])
    (hch' : ∀ m ∈ (GameState.mk k Player.HUMAN N false).available_moves,
      ∃ ce, lookup_seq store (k ++ [m]) = some ce ∧
        (99 : ℚ) / 100 ≤ ce.confidence ∧
        (ce.outcome = "win" ∨ ce.outcome = "lose")) :
    lookup_seq (propagate_certainties N store).1 k =
      some { e with
        outcome :=
          if (child_outcomes_of N store k).count "lose" =
              (child_outcomes_of N store k).length then "win"
          else "lose"
        confidence := 1
        is_terminal := true } := by
  have hkmem : k ∈ store.map Prod.fst := lookup_some_mem_keys hl
  obtain ⟨l₁, l₂, hsplit⟩ := List.append_of_mem hkmem
  have hnd := hnodup
  rw [hsplit] at hnd
  rw [List.nodup_append] at hnd
  have hk1 : ∀ x ∈ l₁, x ≠ k := by
    intro x hx hxk
    subst hxk
    exact hnd.2.2 hx (List.mem_cons_self _ _)
  obtain ⟨hpar, hchl⟩ :=
    foldl_prop_step_parent_inv hch' l₁ hk1 (store, false) hl (fun m hm => rfl)
  set st₁ := (l₁.foldl (prop_step N) (store, false)).1 with hst₁
  have hch₁ : ∀ m ∈ (GameState.mk k Player.HUMAN N false).available_moves,
      ∃ ce, lookup_seq st₁ (k ++ [m]) = some ce ∧
        (99 : ℚ) / 100 ≤ ce.confidence ∧
        (ce.outcome = "win" ∨ ce.outcome = "lose") := by
    intro m hm
    obtain ⟨ce, hce, hcc, hwl⟩ := hch' m hm
    refine ⟨ce, ?_, hcc, hwl⟩
    rw [hchl m hm, hce]
  have hco : child_outcomes_of N st₁ k = child_outcomes_of N store k := by
    rw [child_outcomes_of, child_outcomes_of]
    apply List.filterMap_congr
    intro m hm
    rw [hchl m hm]
  have hfold1 :
      l₁.foldl (prop_step N) (store, false) = (st₁, (l₁.foldl (prop_step N) (store, false)).2) := by
    rw [hst₁]
  have hpromote :=
    @prop_step_promote N st₁ ((l₁.foldl (prop_step N) (store, false)).2) k e
      hpar (not_le.2 hconf) havail hch₁
  set e' : SeqEntry :=
    { e with
      outcome :=
        if (child_outcomes_of N store k).count "lose" =
            (child_outcomes_of N store k).length then "win"
        else "lose"
      confidence := 1
      is_terminal := true } with he'
  have hpromote' :
      prop_step N (l₁.foldl (prop_step N) (store, false)) k =
        (store_update st₁ k e', true) := by
    rw [hfold1, hpromote, he', hco]
  have hlook2 : lookup_seq (store_update st₁ k e') k = some e' :=
    lookup_store_update_self hpar
  have hpass : lookup_seq (prop_pass N store).1 k = some e' := by
    rw [prop_pass, hsplit, List.foldl_append, List.foldl_cons, hpromote']
    exact (foldl_prop_step_protect (by rw [he']; norm_num) l₂
      (store_update st₁ k e', true) hlook2)
  rw [propagate_certainties, propagate_loop]
  by_cases h2 : (prop_pass N store).2 = true
  · rw [if_pos h2]
    exact propagate_loop_protect (by rw [he']; norm_num) 9 _ hpass
  · rw [if_neg h2]
    exact hpass

/-- Witness for the amended C3 at a concrete store whose single child
entry is non-terminal at confidence `0.99` (the kind of entry
`_validate_move` writes). -/
theorem claim_C3_witness :
    lookup_seq
      (propagate_certainties 2
        [([2], (⟨"win", 1 / 2, 1, 1, 0, 1, false⟩ : SeqEntry)),
         ([2, 1], (⟨"win", 99 / 100, 1, 1, 0, 1, false⟩ : SeqEntry))]).1 [2] =
      some ⟨"lose", 1, 1, 1, 0, 1, true⟩ := by
  have h := claim_C3_propagation_closure 2
    [([2], ⟨"win", 1 / 2, 1, 1, 0, 1, false⟩),
     ([2, 1], ⟨"win", 99 / 100, 1, 1, 0, 1, false⟩)]
    [2] ⟨"win", 1 / 2, 1, 1, 0, 1, false⟩
    (by decide) rfl (by norm_num) (by decide)
    (by
      intro m hm
      have hm1 : m = 1 := by
        have : (GameState.mk [2] Player.HUMAN 2 false).available_moves = [1] := by
          decide
        rw [this] at hm
        simpa using hm
      subst hm1
      exact ⟨⟨"win", 99 / 100, 1, 1, 0, 1, false⟩, rfl, by norm_num, Or.inl rfl⟩)
  rw [h]
  rfl

lemma validate_loop_nonterminal (elapsed : Nat → ℚ) (time_budget : ℚ)
    (max_n : Nat) (next_state : GameState) (extended_key : SeqKey) :
    ∀ (i : Nat) (depths : List Int) (w : WriteRec),
      w ∈ validate_loop elapsed time_budget max_n next_state extended_key i depths →
      w.is_terminal = false := by
  intro i depths
  induction depths generalizing i with
  | nil => intro w hw; cases hw
  | cons d rest ih =>
    intro w hw
    rw [validate_loop] at hw
    by_cases hc : time_budget - elapsed i <
        (if max_n ≤ 30 then (3 : ℚ) / 10 else 5 / 10) + 1 / 10
    · rw [if_pos hc] at hw
      cases hw
    · rw [if_neg hc] at hw
      rcases List.mem_cons.1 hw with rfl | hw'
      · rfl
      · exact ih _ w hw'

lemma is_finished_player_irrel (l : List Nat) (p p' : Player) (n : Nat)
    (r r' : Bool) :
    (GameState.mk l p n r).is_finished = (GameState.mk l p' n r').is_finished := rfl

lemma safe_result_nonterminal (s : GameState) (move : Nat) (w : WriteRec)
    (h : (safe_result s move).2 = some w) : w.is_terminal = false := by
  rw [safe_result] at h
  rw [Option.map_eq_some'] at h
  obtain ⟨adv, _, rfl⟩ := h
  rfl

lemma eval_result_terminal (s : GameState) (move : Nat) (w : WriteRec)
    (h : w ∈ (eval_result s move).2) (ht : w.is_terminal = true) :
    (GameState.mk w.key Player.HUMAN s.max_n false).is_finished = true ∧
    ((w.key.length = s.moves.length + 1 ∧ w.outcome = "win") ∨
     (w.key.length = s.moves.length + 2 ∧ w.outcome = "lose")) := by
  rw [eval_result] at h
  by_cases hadv : (s.copy_with_move move Player.HUMAN).available_moves = []
  · rw [if_pos hadv] at h
    dsimp only at h
    rcases List.mem_singleton.1 h with rfl
    refine ⟨?_, Or.inl ⟨by simp [GameState.copy_with_move], rfl⟩⟩
    simp only [GameState.copy_with_move] at hadv ⊢
    simp [GameState.is_finished, hadv]
  · rw [if_neg hadv] at h
    dsimp only at h
    rw [List.mem_flatMap] at h
    obtain ⟨r, hr, hwr⟩ := h
    rw [List.mem_map] at hr
    obtain ⟨adv, _, rfl⟩ := hr
    by_cases hour :
        ((s.copy_with_move move Player.HUMAN).copy_with_move adv
          Player.IA).available_moves = []
    · rw [if_pos hour] at hwr
      dsimp only at hwr
      rcases List.mem_singleton.1 hwr with rfl
      refine ⟨?_, Or.inr ⟨by simp [GameState.copy_with_move], rfl⟩⟩
      simp only [GameState.copy_with_move] at hour ⊢
      have hour' :
          (GameState.mk (s.moves ++ [move, adv]) Player.HUMAN s.max_n
            false).available_moves = [] := by
        have hpl :
            (GameState.mk (s.moves ++ [move, adv]) Player.HUMAN s.max_n
              false).available_moves =
            (GameState.mk (s.moves ++ [move] ++ [adv]) Player.IA s.max_n
              false).available_moves := by
          rw [List.append_assoc]
          rfl
        rw [hpl]
        exact hour
      simp [GameState.is_finished, hour']
    · rw [if_neg hour] at hwr
      cases hwr

lemma quick_heuristic_writes_shape (pick : List Nat → Nat) (s : GameState) :
    (quick_heuristic_move pick s).1 = [] ∨
    ∃ (l₁ l₂ : List Nat),
      (quick_heuristic_move pick s).1 =
        (l₁.map (safe_result s)).filterMap Prod.snd ++
        (l₂.map (eval_result s)).flatMap Prod.snd := by
  rw [quick_heuristic_move]
  dsimp only
  repeat' split
  all_goals first | exact Or.inl rfl | exact Or.inr ⟨_, _, rfl⟩

/-- Claim C4 (amended): every terminal write of the heuristic 2-ply
lookahead and of `_validate_move` concerns a finished position, but
the recorded outcome is the writer's perspective, not the side to
move: writes one ply after the engine's own candidate move (the
opponent is the stuck side) record `win`, and writes two plies deep
(the engine is the stuck side) record `lose`. -/
theorem claim_C4_terminal_write_outcomes :
    (∀ (pick : List Nat → Nat) (s : GameState) (w : WriteRec),
      w ∈ (quick_heuristic_move pick s).1 → w.is_terminal = true →
      (GameState.mk w.key Player.HUMAN s.max_n false).is_finished = true ∧
      ((w.key.length = s.moves.length + 1 ∧ w.outcome = "win") ∨
       (w.key.length = s.moves.length + 2 ∧ w.outcome = "lose"))) ∧
    (∀ (elapsed : Nat → ℚ) (s : GameState) (move : Nat) (time_budget : ℚ)
      (w : WriteRec),
      w ∈ validate_move_writes elapsed s move time_budget →
      w.is_terminal = true →
      (GameState.mk w.key Player.HUMAN s.max_n false).is_finished = true ∧
      w.key.length = s.moves.length + 1 ∧ w.outcome = "win") := by
  constructor
  · intro pick s w hw hterm
    rcases quick_heuristic_writes_shape pick s with hsh | ⟨l₁, l₂, hsh⟩
    · rw [hsh] at hw
      cases hw
    · rw [hsh, List.mem_append] at hw
      rcases hw with hw | hw
      · rw [List.mem_filterMap] at hw
        obtain ⟨p, hp, hpw⟩ := hw
        rw [List.mem_map] at hp
        obtain ⟨move, _, rfl⟩ := hp
        rw [safe_result_nonterminal s move w hpw] at hterm
        cases hterm
      · rw [List.mem_flatMap] at hw
        obtain ⟨q, hq, hwq⟩ := hw
        rw [List.mem_map] at hq
        obtain ⟨move, _, rfl⟩ := hq
        exact eval_result_terminal s move w hwq hterm
  · intro elapsed s move time_budget w hw hterm
    rw [validate_move_writes] at hw
    split at hw
    · cases hw
    · dsimp only at hw
      by_cases h1 :
          (move == 1 && !(s.copy_with_move move Player.HUMAN).is_finished) = true
      · rw [if_pos h1] at hw
        rcases List.mem_singleton.1 hw with rfl
        cases hterm
      · rw [if_neg h1] at hw
        by_cases h2 : (s.copy_with_move move Player.HUMAN).is_finished = true
        · rw [if_pos h2] at hw
          rcases List.mem_singleton.1 hw with rfl
          refine ⟨?_, by simp, rfl⟩
          simp only [GameState.copy_with_move, GameState.is_finished] at h2 ⊢
          exact h2
        · rw [if_neg h2] at hw
          have := validate_loop_nonterminal elapsed time_budget s.max_n
            (s.copy_with_move move Player.HUMAN) (s.moves ++ [move]) 0
            [8, 10, 12, 15] w hw
          rw [this] at hterm
          cases hterm

/-- Counterexample to claim C4 as stated: validating the finishing
move `3` from the state `[2,1]` on grid 4 writes the terminal entry
for the finished position `[2,1,3]` with outcome `win`, not `lose`,
although the side about to move there has lost. -/
theorem claim_C4_counterexample :
    validate_move_writes (fun _ => 0) (GameState.mk [2, 1] Player.HUMAN 4 false)
      3 1 =
      [{ key := [2, 1, 3], outcome := "win", confidence := 1, depth := 99,
         is_terminal := true }] ∧
    (GameState.mk [2, 1, 3] Player.HUMAN 4 false).is_finished = true ∧
    ("win" : String) ≠ "lose" :=
  ⟨by with_unfolding_all decide, by decide, by decide⟩

/-- Witness for the amended C4 at a concrete input. -/
theorem claim_C4_witness :
    ({ key := [2, 1, 3], outcome := "win", confidence := 1, depth := 99,
       is_terminal := true } : WriteRec) ∈
      validate_move_writes (fun _ => 0)
        (GameState.mk [2, 1] Player.HUMAN 4 false) 3 1 ∧
    (GameState.mk [2, 1, 3] Player.HUMAN 4 false).is_finished = true :=
  ⟨by with_unfolding_all decide,
   (claim_C4_terminal_write_outcomes.2 (fun _ => 0)
     (GameState.mk [2, 1] Player.HUMAN 4 false) 3 1
     { key := [2, 1, 3], outcome := "win", confidence := 1, depth := 99,
       is_terminal := true }
     (by with_unfolding_all decide) rfl).1⟩

lemma headD_mem {α : Type} {l : List α} (h : l ≠ []) (d : α) : l.headD d ∈ l := by
  cases l with
  | nil => exact absurd rfl h
  | cons a t => exact List.mem_cons_self a t

lemma mergeSort_ne_nil {α : Type} {l : List α} (h : l ≠ []) (r : α → α → Bool) :
    l.mergeSort r ≠ [] := by
  intro hnil
  have := (List.mergeSort_perm l r).length_eq
  rw [hnil] at this
  exact h (List.eq_nil_of_length_eq_zero this.symm)

lemma foldl_max_acc : ∀ (l : List Nat) (a : Nat),
    l.foldl Nat.max a = a ∨ l.foldl Nat.max a ∈ l := by
  intro l
  induction l with
  | nil => intro a; exact Or.inl rfl
  | cons b t ih =>
    intro a
    rw [List.foldl_cons]
    rcases ih (Nat.max a b) with h | h
    · rw [h]
      by_cases hab : a ≤ b
      · have hm : Nat.max a b = b := max_eq_right hab
        rw [hm]
        exact Or.inr (List.mem_cons_self b t)
      · have hm : Nat.max a b = a := max_eq_left (le_of_not_le hab)
        rw [hm]
        exact Or.inl rfl
    · exact Or.inr (List.mem_cons_of_mem b h)

lemma foldl_max_mem {l : List Nat} (h : l ≠ []) : l.foldl Nat.max 0 ∈ l := by
  cases l with
  | nil => exact absurd rfl h
  | cons b t =>
    rw [List.foldl_cons]
    have hm : Nat.max 0 b = b := max_eq_right (Nat.zero_le b)
    rw [hm]
    rcases foldl_max_acc t b with h' | h'
    · rw [h']
      exact List.mem_cons_self b t
    · exact List.mem_cons_of_mem b h'

lemma filter_ne_one_ne_nil {l : List Nat} (hnd : l.Nodup) (hlen : 1 < l.length) :
    l.filter (fun x => x != 1) ≠ [] := by
  intro hnil
  rw [List.filter_eq_nil_iff] at hnil
  have hall : ∀ a ∈ l, a = 1 := by
    intro a ha
    have := hnil a ha
    simpa using this
  cases l with
  | nil => simp at hlen
  | cons a t =>
    cases t with
    | nil => simp at hlen
    | cons b u =>
      have ha := hall a (List.mem_cons_self _ _)
      have hb := hall b (List.mem_cons_of_mem _ (List.mem_cons_self _ _))
      rw [List.nodup_cons] at hnd
      exact hnd.1 (by rw [ha, ← hb]; exact List.mem_cons_self _ _)

lemma gbm_mem {grid_size : Nat} {available already_played : List Nat}
    {min_connections : Nat} {p : Nat × Nat}
    (h : p ∈ get_best_moves_by_connections grid_size available already_played
      min_connections) :
    p.1 ∈ available := by
  rw [get_best_moves_by_connections, List.mem_mergeSort, List.mem_filterMap] at h
  obtain ⟨move, hmove, hf⟩ := h
  dsimp only at hf
  split at hf
  · cases hf
    exact hmove
  · cases hf

lemma gbm_zero_ne_nil {grid_size : Nat} {available already_played : List Nat}
    (h : available ≠ []) :
    get_best_moves_by_connections grid_size available already_played 0 ≠ [] := by
  cases available with
  | nil => exact absurd rfl h
  | cons a t =>
    intro hnil
    have hmem : (a,
        (get_dynamic_connections grid_size a ((already_played ++ [a]))).length) ∈
        get_best_moves_by_connections grid_size (a :: t) already_played 0 := by
      rw [get_best_moves_by_connections, List.mem_mergeSort, List.mem_filterMap]
      exact ⟨a, List.mem_cons_self a t, by simp⟩
    rw [hnil] at hmem
    cases hmem

lemma quick_lookup_mem {store : KStore} {s : GameState} {m : Nat}
    (h : quick_lookup store s = some m) : m ∈ s.available_moves := by
  rw [quick_lookup] at h
  split at h
  · have haux : ∀ (l : List Nat) (acc : Option Nat × ℚ),
        (∀ x, acc.1 = some x → x ∈ s.available_moves) →
        (∀ x ∈ l, x ∈ s.available_moves) →
        ∀ x, (l.foldl
          (fun acc move =>
            match lookup_seq store (s.moves ++ [move]) with
            | some seq =>
              if seq.outcome == "win" && decide (acc.2 < seq.confidence) then
                (some move, seq.confidence)
              else acc
            | none => acc) acc).1 = some x → x ∈ s.available_moves := by
      intro l
      induction l with
      | nil => intro acc hacc _ x hx; exact hacc x hx
      | cons mv t ih =>
        intro acc hacc hsub x
        rw [List.foldl_cons]
        refine ih _ ?_ (fun y hy => hsub y (List.mem_cons_of_mem mv hy)) x
        intro y hy
        split at hy
        · split at hy
          · cases hy
            exact hsub mv (List.mem_cons_self mv t)
          · exact hacc y hy
        · exact hacc y hy
    exact haux s.available_moves (none, 0) (by intro x hx; cases hx)
      (fun x hx => hx) m h
  · cases h

lemma filter_one_stage_sub (l : List Nat) :
    ∀ x ∈ (if 1 < l.length && l.contains 1 then
      l.filter (fun x => x != 1) else l), x ∈ l := by
  intro x hx
  split at hx
  · exact List.mem_of_mem_filter hx
  · exact hx

lemma filter_one_stage_ne {l : List Nat} (hnd : l.Nodup) (h : l ≠ []) :
    (if 1 < l.length && l.contains 1 then
      l.filter (fun x => x != 1) else l) ≠ [] := by
  split
  · rename_i hc
    rw [Bool.and_eq_true, decide_eq_true_eq] at hc
    exact filter_ne_one_ne_nil hnd hc.1
  · exact h

lemma gbm_stage_sub (g : Nat) (l played : List Nat) (mc cap : Nat) :
    ∀ x ∈ ((get_best_moves_by_connections g l played mc).take cap).map Prod.fst,
      x ∈ l := by
  intro x hx
  rw [List.mem_map] at hx
  obtain ⟨p, hp, rfl⟩ := hx
  exact gbm_mem (List.take_subset _ _ hp)

lemma eval_result_fst (s : GameState) (mv : Nat) : (eval_result s mv).1.1 = mv := by
  rw [eval_result]
  split <;> rfl

lemma prime_shortcut_mem {s : GameState} {available : List Nat} {c : Nat}
    (h : prime_shortcut s available = some c) : c ∈ available := by
  rw [prime_shortcut] at h
  split at h
  · dsimp only at h
    split at h
    · rename_i hne
      cases h
      exact List.mem_of_mem_filter (foldl_max_mem hne)
    · cases h
  · cases h

lemma heuristic_first_move_mem (pick : List Nat → Nat)
    (hpick : ∀ l : List Nat, l ≠ [] → pick l ∈ l) (s : GameState)
    (hN : 40 ≤ s.max_n) (hmoves : s.moves = []) :
    heuristic_first_move pick s ∈ s.available_moves := by
  rw [heuristic_first_move, if_pos hN]
  have hsub : ∀ x ∈ List.range' 10 (s.max_n / 2 - 4) 2, x ∈ s.available_moves := by
    intro x hx
    rw [List.mem_range'] at hx
    obtain ⟨i, hi, rfl⟩ := hx
    rw [mem_available_of_empty s hmoves]
    exact ⟨by omega, by omega, ⟨5 + i, by ring⟩⟩
  have hAne : List.range' 10 (s.max_n / 2 - 4) 2 ≠ [] := by
    have hlen := List.length_range' 10 2 (s.max_n / 2 - 4)
    intro hnil
    rw [hnil] at hlen
    simp at hlen
    omega
  by_cases hsc :
      get_best_moves_by_connections s.max_n (List.range' 10 (s.max_n / 2 - 4) 2)
        s.moves 8 ≠ []
  · rw [if_pos hsc]
    have htop :
        ((get_best_moves_by_connections s.max_n
            (List.range' 10 (s.max_n / 2 - 4) 2) s.moves 8).take
          (Nat.max 3
            ((get_best_moves_by_connections s.max_n
              (List.range' 10 (s.max_n / 2 - 4) 2) s.moves 8).length / 3))).map
          Prod.fst ≠ [] := by
      intro hnil
      rw [List.map_eq_nil_iff, List.take_eq_nil_iff] at hnil
      rcases hnil with hnil | hnil
      · have h3 : (3 : Nat) ≤ Nat.max 3
            ((get_best_moves_by_connections s.max_n
              (List.range' 10 (s.max_n / 2 - 4) 2) s.moves 8).length / 3) :=
          le_max_left _ _
        omega
      · exact hsc hnil
    exact hsub _ (gbm_stage_sub s.max_n _ s.moves 8 _ _ (hpick _ htop))
  · rw [if_neg hsc, if_pos hN]
    by_cases hsafe :
        (List.range' 10 (s.max_n / 2 - 4) 2).filter
          (fun x => s.max_n / 4 ≤ x) ≠ []
    · rw [if_pos hsafe]
      exact hsub _ (List.mem_of_mem_filter (hpick _ hsafe))
    · rw [if_neg hsafe]
      exact hsub _ (hpick _ hAne)

lemma quick_heuristic_mem (pick : List Nat → Nat)
    (hpick : ∀ l : List Nat, l ≠ [] → pick l ∈ l) (s : GameState)
    (hav : s.available_moves ≠ []) :
    ∃ m, (quick_heuristic_move pick s).2 = some m ∧ m ∈ s.available_moves := by
  rw [quick_heuristic_move, if_neg hav]
  cases hpc : prime_shortcut s s.available_moves with
  | some c =>
    exact ⟨c, rfl, prime_shortcut_mem hpc⟩
  | none =>
    dsimp only
    set A1 := if 1 < s.available_moves.length && s.available_moves.contains 1 then
        s.available_moves.filter (fun x => x != 1)
      else s.available_moves with hA1
    have hA1sub : ∀ x ∈ A1, x ∈ s.available_moves :=
      filter_one_stage_sub s.available_moves
    have hA1ne : A1 ≠ [] := filter_one_stage_ne (nodup_available s) hav
    by_cases hlen : A1.length = 1
    · rw [if_pos hlen]
      exact ⟨A1.headD 0, rfl, hA1sub _ (headD_mem hA1ne 0)⟩
    · rw [if_neg hlen]
      set A2 := if 10 < A1.length then
          if get_best_moves_by_connections s.max_n A1 s.moves 3 ≠ [] then
            ((get_best_moves_by_connections s.max_n A1 s.moves 3).take 10).map
              Prod.fst
          else A1
        else A1 with hA2
      have hA2sub : ∀ x ∈ A2, x ∈ s.available_moves := by
        intro x hx
        rw [hA2] at hx
        split at hx
        · split at hx
          · exact hA1sub _ (gbm_stage_sub s.max_n A1 s.moves 3 10 _ hx)
          · exact hA1sub _ hx
        · exact hA1sub _ hx
      have hA2ne : A2 ≠ [] := by
        rw [hA2]
        split
        · split
          · rename_i hgbm
            intro hnil
            rw [List.map_eq_nil_iff, List.take_eq_nil_iff] at hnil
            rcases hnil with hnil | hnil
            · omega
            · exact hgbm hnil
          · exact hA1ne
        · exact hA1ne
      set SM := ((A2.map (safe_result s)).filter (fun p => p.2.isNone)).map
        Prod.fst with hSM
      have hSMsub : ∀ x ∈ SM, x ∈ A2 := by
        intro x hx
        rw [hSM, List.mem_map] at hx
        obtain ⟨p, hp, rfl⟩ := hx
        have hp' := List.mem_of_mem_filter hp
        rw [List.mem_map] at hp'
        obtain ⟨mv, hmv, rfl⟩ := hp'
        exact hmv
      set A3 := if SM ≠ [] then SM else A2 with hA3
      have hA3sub : ∀ x ∈ A3, x ∈ s.available_moves := by
        intro x hx
        rw [hA3] at hx
        split at hx
        · exact hA2sub _ (hSMsub _ hx)
        · exact hA2sub _ hx
      have hA3ne : A3 ≠ [] := by
        rw [hA3]
        split
        · assumption
        · exact hA2ne
      set tops := ((((A3.map (eval_result s)).map Prod.fst).mergeSort
        (fun a b => b.2 ≤ a.2)).take 3).map Prod.fst with htops
      have htopne : tops ≠ [] := by
        rw [htops]
        intro hnil
        rw [List.map_eq_nil_iff, List.take_eq_nil_iff] at hnil
        rcases hnil with hnil | hnil
        · omega
        · refine mergeSort_ne_nil ?_ _ hnil
          intro hnil'
          rw [List.map_eq_nil_iff, List.map_eq_nil_iff] at hnil'
          exact hA3ne hnil'
      refine ⟨pick tops, rfl, ?_⟩
      have hmem := hpick _ htopne
      rw [htops, List.mem_map] at hmem
      obtain ⟨p, hp, hpe⟩ := hmem
      have hp' := List.take_subset _ _ hp
      rw [List.mem_mergeSort, List.mem_map] at hp'
      obtain ⟨q, hq, rfl⟩ := hp'
      rw [List.mem_map] at hq
      obtain ⟨mv, hmv, rfl⟩ := hq
      rw [← hpe, eval_result_fst]
      exact hA3sub _ hmv

lemma winning_moves_sub {state : GameState} {available : List Nat} {depth : Int}
    {p : Nat × Nat} (h : p ∈ winning_moves_of state available depth) :
    p.1 ∈ available := by
  rw [winning_moves_of, List.mem_filterMap] at h
  obtain ⟨mv, hmv, hf⟩ := h
  dsimp only at hf
  split at hf
  · cases hf
    exact hmv
  · cases hf

lemma minimax_move_mem (pick : List Nat → Nat)
    (hpick : ∀ l : List Nat, l ≠ [] → pick l ∈ l) (s : GameState)
    (time_budget : ℚ) (hav : s.available_moves ≠ []) :
    minimax_move pick s time_budget ∈ s.available_moves := by
  rw [minimax_move]
  dsimp only
  set A1 := if 1 < s.available_moves.length && s.available_moves.contains 1 then
      s.available_moves.filter (fun x => x != 1)
    else s.available_moves with hA1
  have hA1sub : ∀ x ∈ A1, x ∈ s.available_moves :=
    filter_one_stage_sub s.available_moves
  have hA1ne : A1 ≠ [] := filter_one_stage_ne (nodup_available s) hav
  set LP := A1.filter (fun x =>
    is_prime_py x && decide ((s.max_n : ℚ) * (5 / 10) < (x : ℚ))) with hLP
  by_cases hfast :
      (((s.moves.getLast? == some 1) && decide (3 < A1.length)) &&
        !LP.isEmpty) = true
  · rw [if_pos hfast]
    have hLPne : LP ≠ [] := by
      rw [Bool.and_eq_true] at hfast
      have := hfast.2
      rw [Bool.not_eq_true'] at this
      intro hnil
      rw [hnil] at this
      simp at this
    exact hA1sub _ (List.mem_of_mem_filter (foldl_max_mem hLPne))
  · rw [if_neg hfast]
    set A2 := if ((s.moves.getLast? == some 1) && decide (3 < A1.length)) &&
        LP.isEmpty then
        if A1.filter (fun x => decide (6 < x)) ≠ [] then
          A1.filter (fun x => decide (6 < x))
        else A1
      else A1 with hA2
    have hA2sub : ∀ x ∈ A2, x ∈ A1 := by
      intro x hx
      rw [hA2] at hx
      split at hx
      · split at hx
        · exact List.mem_of_mem_filter hx
        · exact hx
      · exact hx
    have hA2ne : A2 ≠ [] := by
      rw [hA2]
      split
      · split
        · assumption
        · exact hA1ne
      · exact hA1ne
    set A3 := if (50 ≤ s.max_n && 10 < A2.length : Bool) then
        if get_best_moves_by_connections s.max_n A2 s.moves 5 ≠ [] then
          ((get_best_moves_by_connections s.max_n A2 s.moves 5).take 10).map
            Prod.fst
        else
          ((get_best_moves_by_connections s.max_n A2 s.moves 0).take 10).map
            Prod.fst
      else A2 with hA3
    have hA3sub : ∀ x ∈ A3, x ∈ A2 := by
      intro x hx
      rw [hA3] at hx
      split at hx
      · split at hx
        · exact gbm_stage_sub s.max_n A2 s.moves 5 10 _ hx
        · exact gbm_stage_sub s.max_n A2 s.moves 0 10 _ hx
      · exact hx
    have hA3ne : A3 ≠ [] := by
      rw [hA3]
      split
      · split
        · rename_i hgbm
          intro hnil
          rw [List.map_eq_nil_iff, List.take_eq_nil_iff] at hnil
          rcases hnil with hnil | hnil
          · omega
          · exact hgbm hnil
        · intro hnil
          rw [List.map_eq_nil_iff, List.take_eq_nil_iff] at hnil
          rcases hnil with hnil | hnil
          · omega
          · exact gbm_zero_ne_nil hA2ne hnil
      · exact hA2ne
    set D := minimax_depth_for s.max_n s.moves.length (time_budget) with hD
    by_cases hwin : winning_moves_of s A3 D ≠ []
    · rw [if_pos hwin]
      have hhead : ((winning_moves_of s A3 D).mergeSort
          (fun a b => a.2 ≤ b.2)).headD (0, 0) ∈
          (winning_moves_of s A3 D).mergeSort (fun a b => a.2 ≤ b.2) :=
        headD_mem (mergeSort_ne_nil hwin _) _
      rw [List.mem_mergeSort] at hhead
      exact hA1sub _ (hA2sub _ (hA3sub _ (winning_moves_sub hhead)))
    · rw [if_neg hwin]
      exact hA1sub _ (hA2sub _ (hA3sub _ (hpick _ hA3ne)))

/-- Counterexample to claim C9 as stated: on the grid `max_n = 35`
(strictly between the minimax branch `<= 30` and the heuristic branch
`>= 40`) with an empty store, `find_move_with_time_budget` falls
through both compute branches and returns no move at all, although a
legal move exists. -/
theorem claim_C9_counterexample :
    find_move_with_time_budget (fun l => l.headD 0) []
      (GameState.mk [2] Player.HUMAN 35 false) 10 = none ∧
    (GameState.mk [2] Player.HUMAN 35 false).available_moves ≠ [] ∧
    ¬((GameState.mk [2] Player.HUMAN 35 false).max_n ≤ 30 ∨
      40 ≤ (GameState.mk [2] Player.HUMAN 35 false).max_n) :=
  ⟨by with_unfolding_all decide, by decide, by decide⟩

/-- Claim C9 (amended): whenever the grid size is `<= 30` or `>= 40`
(the only grid sizes the engine is configured with), the decision
function returns a member of `available_moves` for every store, state
with a legal move, and time budget; the time budget only selects
search depths and never makes the choice illegal.  For
`30 < max_n < 40` with no lookup hit the function instead returns no
move (`None`). -/
theorem claim_C9_returns_legal_move (pick : List Nat → Nat) (store : KStore)
    (s : GameState) (time_budget : ℚ)
    (hpick : ∀ l : List Nat, l ≠ [] → pick l ∈ l)
    (hav : s.available_moves ≠ [])
    (hgrid : s.max_n ≤ 30 ∨ 40 ≤ s.max_n) :
    ∃ m, find_move_with_time_budget pick store s time_budget = some m ∧
      m ∈ s.available_moves := by
  rw [find_move_with_time_budget]
  cases hql : quick_lookup store s with
  | some m => exact ⟨m, rfl, quick_lookup_mem hql⟩
  | none =>
    by_cases h40 : 40 ≤ s.max_n
    · rw [if_pos h40]
      by_cases hz : s.moves.length = 0
      · rw [if_pos hz]
        exact ⟨heuristic_first_move pick s, rfl,
          heuristic_first_move_mem pick hpick s h40 (List.length_eq_zero.1 hz)⟩
      · rw [if_neg hz]
        exact quick_heuristic_mem pick hpick s hav
    · rw [if_neg h40]
      have h30 : s.max_n ≤ 30 := by
        rcases hgrid with h | h
        · exact h
        · exact absurd h h40
      rw [if_pos h30]
      exact ⟨minimax_move pick s (time_budget * (6 / 10)), rfl,
        minimax_move_mem pick hpick s (time_budget * (6 / 10)) hav⟩

/-- Witness for the amended C9 at a concrete input. -/
theorem claim_C9_witness :
    (GameState.mk [] Player.HUMAN 20 false).available_moves ≠ [] ∧
    ∃ m, find_move_with_time_budget (fun l => l.headD 0) []
        (GameState.mk [] Player.HUMAN 20 false) 1 = some m ∧
      m ∈ (GameState.mk [] Player.HUMAN 20 false).available_moves :=
  ⟨by decide,
   claim_C9_returns_legal_move (fun l => l.headD 0) []
     (GameState.mk [] Player.HUMAN 20 false) 1
     (fun l hl => headD_mem hl 0) (by decide) (Or.inl (by decide))⟩
